import Mathlib

/-!
Verification of the plusendi repository core: the B2 framed-message parser
(src/fbb.rs), the station-id normalizer (src/types.rs), the VARA command
rendering (src/modem/vara.rs), the handshake banner (src/main.rs) and the
adaptive-Huffman frequency model (src/lzhuf.rs), shallowly embedded over
lists of bytes.

Bytes are modelled as `Fin 256` (the Rust parsers consume `&[u8]`).  The
nom streaming combinators are modelled by functions into `PRes`, which
distinguishes success (with the remaining input), `Incomplete` (with the
number of additional bytes needed) and hard parse errors, mirroring
`nom::IResult` with `nom::Err::Incomplete`/`nom::Err::Error`.
-/

namespace Plusendi

abbrev Byte := Fin 256

/-- Result of running a streaming parser: mirrors nom's
`Ok((rest, value))`, `Err(Incomplete(Needed::new(n)))` and
`Err(Error(..))`. -/
inductive PRes (α : Type) : Type where
  | ok : List Byte → α → PRes α
  | more : Nat → PRes α
  | err : PRes α
deriving DecidableEq

/-- Shallow embedding of a nom parser over a byte slice. -/
def ByteParse (α : Type) : Type := List Byte → PRes α

/-- Sequencing of parsers, as nom's tuple/`preceded`/`terminated`
combinators thread the remaining input. -/
def pbind {α β : Type} (p : ByteParse α) (f : α → ByteParse β) : ByteParse β :=
  fun xs =>
    match p xs with
    | .ok rest a => f a rest
    | .more n => .more n
    | .err => .err

/-- nom's `verify`: run the inner parser, then require the predicate. -/
def pverify {α : Type} (p : ByteParse α) (pred : α → Bool) : ByteParse α :=
  fun xs =>
    match p xs with
    | .ok rest a => if pred a then .ok rest a else .err
    | .more n => .more n
    | .err => .err

/-- Propagation of an already-computed sub-result (the `?` operator on a
nom result computed from extracted bytes): success keeps the outer
remaining input, `Incomplete` and errors propagate. -/
def pemit {α : Type} (c : PRes α) : ByteParse α :=
  fun xs =>
    match c with
    | .ok _ v => .ok xs v
    | .more n => .more n
    | .err => .err

/-- Propagation of an optional value: `none` is a hard parse error. -/
def pemitO {α : Type} (c : Option α) : ByteParse α :=
  fun xs =>
    match c with
    | some v => .ok xs v
    | none => .err

/-- A parser that consumes nothing and returns a value. -/
def ppure {α : Type} (a : α) : ByteParse α := fun xs => .ok xs a

/-- nom's streaming `tag` for a single byte (`soh`, `nul`, `stx`, `eot`
in src/fbb.rs are all one-byte tags). -/
def tagByte (b : Byte) : ByteParse Unit :=
  fun xs =>
    match xs with
    | [] => .more 1
    | x :: rest => if x = b then .ok rest () else .err

/-- nom's streaming `be_u8`. -/
def beU8 : ByteParse Byte :=
  fun xs =>
    match xs with
    | [] => .more 1
    | x :: rest => .ok rest x

/-- nom's streaming `take(n)`: on short input reports how many more bytes
are needed. -/
def takeN (n : Nat) : ByteParse (List Byte) :=
  fun xs =>
    if xs.length < n then .more (n - xs.length) else .ok (xs.drop n) (xs.take n)

/-! ## src/fbb.rs: the B2 frame grammar -/

/-- Title bytes accepted by `header`: `is_ascii_graphic() || c == b' '`. -/
def isTitleByte (b : Byte) : Bool := 0x20 ≤ b.val && b.val ≤ 0x7E

/-- nom's `is_digit`: ASCII `0`-`9`. -/
def isDigitByte (b : Byte) : Bool := 0x30 ≤ b.val && b.val ≤ 0x39

/-- Decimal value of an ASCII digit string. -/
def digitsVal (l : List Byte) : Nat :=
  l.foldl (fun acc b => acc * 10 + (b.val - 0x30)) 0

/-- The inner parse of the length-delimited header payload:
`all_consuming(terminated(separated_pair(title, nul, offset), nul))`,
where `title` is `take_while` over title bytes and `offset` is
`map_res(take_while(is_digit), u32::from_str_radix)`.  The `nul` tags are
nom streaming tags, so running off the end of the payload reports
`Incomplete`. -/
def headerInner (h : List Byte) : PRes (List Byte × Nat) :=
  let title := h.takeWhile isTitleByte
  match h.dropWhile isTitleByte with
  | [] => .more 1
  | b :: r2 =>
    if b.val = 0 then
      let ds := r2.takeWhile isDigitByte
      match r2.dropWhile isDigitByte with
      | [] => .more 1
      | b2 :: r4 =>
        if b2.val = 0 then
          if ds = [] then .err
          else if digitsVal ds < 4294967296 then
            if r4 = [] then .ok [] (title, digitsVal ds) else .err
          else .err
        else .err
    else .err

/-- `header` of src/fbb.rs: SOH, a length byte checked with
`verify(be_u8, |&v| v <= 88)`, `take(len)`, then the inner parse of the
extracted payload. -/
def headerP : ByteParse (List Byte × Nat) :=
  pbind (tagByte 0x01) fun _ =>
  pbind (pverify beU8 (fun v => v.val ≤ 88)) fun len =>
  pbind (takeN len.val) fun h =>
  pemit (headerInner h)

/-- `checksum` of src/fbb.rs: `preceded(eot, be_u8)`. -/
def checksumP : ByteParse Byte :=
  pbind (tagByte 0x04) fun _ => beU8

/-- `data_block` of src/fbb.rs: STX, a length byte, then `len` payload
bytes, where `len == 0` stands for 256. -/
def dataBlockP : ByteParse (List Byte) :=
  pbind (tagByte 0x02) fun _ =>
  pbind beU8 fun len =>
  takeN (if len.val = 0 then 256 else len.val)

theorem tagByte_ok {b : Byte} {xs rest : List Byte} {u : Unit}
    (h : tagByte b xs = .ok rest u) : xs = b :: rest := by
  match xs with
  | [] => simp [tagByte] at h
  | x :: xs1 =>
    simp only [tagByte] at h
    split at h
    · next hx => cases h; exact congrArg (· :: rest) hx
    · cases h

theorem beU8_ok {xs rest : List Byte} {x : Byte}
    (h : beU8 xs = .ok rest x) : xs = x :: rest := by
  match xs with
  | [] => simp [beU8] at h
  | y :: xs1 => simp only [beU8, PRes.ok.injEq] at h; rw [h.1, h.2]

theorem takeN_ok {n : Nat} {xs rest v : List Byte}
    (h : takeN n xs = .ok rest v) :
    n ≤ xs.length ∧ rest = xs.drop n ∧ v = xs.take n := by
  simp only [takeN] at h
  split at h
  · cases h
  · next hlen => cases h; exact ⟨Nat.le_of_not_lt hlen, rfl, rfl⟩

theorem pbind_ok {α β : Type} {p : ByteParse α} {f : α → ByteParse β}
    {xs rest : List Byte} {b : β} (h : pbind p f xs = .ok rest b) :
    ∃ mid a, p xs = .ok mid a ∧ f a mid = .ok rest b := by
  unfold pbind at h
  split at h
  · next mid a hp => exact ⟨mid, a, hp, h⟩
  · cases h
  · cases h

theorem dataBlockP_shrinks {xs rest : List Byte} {v : List Byte}
    (h : dataBlockP xs = .ok rest v) : rest.length < xs.length := by
  obtain ⟨m1, u1, h1, h⟩ := pbind_ok h
  obtain ⟨m2, len, h2, h⟩ := pbind_ok h
  obtain ⟨hn, hrest, -⟩ := takeN_ok h
  have e1 := tagByte_ok h1
  have e2 := beU8_ok h2
  subst hrest e1
  cases e2
  simp only [List.length_drop, List.length_cons]
  omega

/-- The loop of `many_till(data_block, checksum)` in src/fbb.rs:
repeatedly try the checksum terminator first, and otherwise parse one
more data block.  `Incomplete` from either side is propagated.  The fuel
argument only bounds the recursion; every data block consumes at least
three bytes, so fuel exceeding the input length never runs out (see
`manyBlocks_eq`). -/
def manyBlocksF : Nat → List Byte → PRes (List (List Byte) × Byte)
  | 0, _ => .err
  | fuel + 1, xs =>
    match checksumP xs with
    | .ok rest cs => .ok rest ([], cs)
    | .more n => .more n
    | .err =>
      match dataBlockP xs with
      | .ok rest1 blk =>
        match manyBlocksF fuel rest1 with
        | .ok rest (blks, cs) => .ok rest (blk :: blks, cs)
        | .more n => .more n
        | .err => .err
      | .more n => .more n
      | .err => .err

/-- `many_till(data_block, checksum)` of src/fbb.rs. -/
def manyBlocks : ByteParse (List (List Byte) × Byte) :=
  fun xs => manyBlocksF (xs.length + 1) xs

theorem manyBlocksF_fuel {fuel : Nat} {xs : List Byte}
    (hf : xs.length < fuel) :
    manyBlocksF fuel xs = manyBlocksF (xs.length + 1) xs := by
  induction fuel using Nat.strong_induction_on generalizing xs with
  | _ fuel ih =>
    match fuel, hf with
    | fuel + 1, hf =>
      rw [manyBlocksF, manyBlocksF]
      cases hcs : checksumP xs with
      | ok rest cs => rfl
      | more n => rfl
      | err =>
        simp only
        cases hdb : dataBlockP xs with
        | ok rest1 blk =>
          have hlt := dataBlockP_shrinks hdb
          have e1 : manyBlocksF fuel rest1 = manyBlocksF (rest1.length + 1) rest1 :=
            ih fuel (Nat.lt_succ_self _) (by omega)
          have e2 : manyBlocksF xs.length rest1
              = manyBlocksF (rest1.length + 1) rest1 :=
            ih xs.length (by omega) (by omega)
          simp only [e1, e2]
        | more n => rfl
        | err => rfl

/-- The one-step unfolding of `manyBlocks`, mirroring the `many_till`
loop. -/
theorem manyBlocks_eq (xs : List Byte) :
    manyBlocks xs =
      match checksumP xs with
      | .ok rest cs => .ok rest ([], cs)
      | .more n => .more n
      | .err =>
        match dataBlockP xs with
        | .ok rest1 blk =>
          match manyBlocks rest1 with
          | .ok rest (blks, cs) => .ok rest (blk :: blks, cs)
          | .more n => .more n
          | .err => .err
        | .more n => .more n
        | .err => .err := by
  show manyBlocksF (xs.length + 1) xs = _
  rw [manyBlocksF]
  cases hcs : checksumP xs with
  | ok rest cs => rfl
  | more n => rfl
  | err =>
    simp only
    cases hdb : dataBlockP xs with
    | ok rest1 blk =>
      have hlt := dataBlockP_shrinks hdb
      simp only [show manyBlocksF xs.length rest1
          = manyBlocksF (rest1.length + 1) rest1
        from manyBlocksF_fuel (by omega)]
      rfl
    | more n => rfl
    | err => rfl

/-- `first_data_block` of src/fbb.rs: complete `le_u16` (the CRC-16
field) then complete `le_u32` (the uncompressed size), peeled off the
front of the first block.  Fewer than six bytes is a hard error. -/
def firstDataBlock (b : List Byte) : Option (List Byte × Nat × Nat) :=
  match b with
  | b0 :: b1 :: b2 :: b3 :: b4 :: b5 :: rest =>
    some (rest, b0.val + 256 * b1.val,
      b2.val + 256 * b3.val + 65536 * b4.val + 16777216 * b5.val)
  | _ => none

/-- `data_blocks` of src/fbb.rs: collect blocks and the trailing
checksum, then peel the leading 6 bytes of block 0 as CRC-16 and
uncompressed size (0 and 0 if there is no block at all). -/
def peelFirst (bc : List (List Byte) × Byte) :
    Option (Nat × Nat × List (List Byte) × Byte) :=
  match bc.1 with
  | [] => some (0, 0, [], bc.2)
  | b0 :: bs =>
    match firstDataBlock b0 with
    | some (rest0, crc, size) => some (crc, size, rest0 :: bs, bc.2)
    | none => none

def dataBlocksP : ByteParse (Nat × Nat × List (List Byte) × Byte) :=
  pbind manyBlocks fun bc => pemitO (peelFirst bc)

/-! ### CRC-16 model

`use crate::crc16::Crc16` refers to src/crc16.rs, which is declared in
src/lib.rs but absent from the sources. -/

/-- Modelled from the spec: src/crc16.rs is missing from the sources; the
spec describes a stateful FBB CRC-16 accumulator with seed 0 updated one
byte at a time (the reflected FBB polynomial 0x8408), whose `finish`
returns the 16-bit register. -/
def crcStep (x : Nat) : Nat :=
  if x % 2 = 1 then (x / 2) ^^^ 0x8408 else x / 2

/-- Modelled from the spec: one `Crc16::update` call for byte `b`. -/
def crcUpdate (c b : Nat) : Nat := crcStep^[8] (c ^^^ b)

/-- Modelled from the spec: feed every byte into a fresh accumulator and
`finish`. -/
def crc16Of (bs : List Nat) : Nat := bs.foldl crcUpdate 0

/-- The little-endian byte decomposition used by
`uncompressed_size.to_le_bytes()`. -/
def le32Bytes (n : Nat) : List Nat :=
  [n % 256, n / 256 % 256, n / 65536 % 256, n / 16777216 % 256]

/-- The `verify` predicate of `b2_message_block`: the 8-bit wrapping sum
check and the CRC-16 check, with the exact wrapping casts of the Rust
expression. -/
def frameCheck (crc size : Nat) (blocks : List (List Byte)) (cs : Byte) : Bool :=
  let c16 := (crc + crc / 256) % 65536
  let s32 := (size + size / 256 + size / 65536 + size / 16777216) % 4294967296
  let c32 := (c16 + s32) % 4294967296
  let c8 := c32 % 256
  let folded := blocks.flatten.foldl (fun x y => (x + y.val) % 256) c8
  decide ((cs.val + folded) % 256 = 0) &&
    decide (crc16Of (le32Bytes size ++ blocks.flatten.map Fin.val) = crc)

/-- `CompressedMessage` of src/fbb.rs. -/
structure CompressedMessage where
  title : List Byte
  offset : Nat
  crc16 : Nat
  uncompressedSize : Nat
  blocks : List (List Byte)
deriving DecidableEq

/-- `b2_message_block` of src/fbb.rs: the header, then the verified data
blocks, assembled into a `CompressedMessage`. -/
def b2MessageBlock : ByteParse CompressedMessage :=
  pbind headerP fun tv =>
  pbind (pverify dataBlocksP fun q => frameCheck q.1 q.2.1 q.2.2.1 q.2.2.2) fun q =>
  ppure ⟨tv.1, tv.2, q.1, q.2.1, q.2.2.1⟩

/-! ### Streaming stability

For claim C3: every parser in the `b2_message_block` chain is stable,
i.e. whenever it succeeds on some input, on every strict prefix of the
consumed bytes it reports `Incomplete` with a positive byte count, and
on the consumed bytes followed by any prefix of the leftover it succeeds
with the same value and the correspondingly shortened leftover. -/

def Stable {α : Type} (P : ByteParse α) : Prop :=
  ∀ xs r v, P xs = .ok r v →
    ∃ u, xs = u ++ r ∧
      (∀ m, m < u.length → ∃ n, 1 ≤ n ∧ P (xs.take m) = .more n) ∧
      (∀ k, k ≤ r.length → P (u ++ r.take k) = .ok (r.take k) v)

theorem take_append_left {α : Type} (u r : List α) {m : Nat}
    (hm : u.length ≤ m) : (u ++ r).take m = u ++ r.take (m - u.length) := by
  rw [List.take_append_eq_append_take, List.take_of_length_le hm]

theorem pverify_ok {α : Type} {p : ByteParse α} {pred : α → Bool}
    {xs rest : List Byte} {a : α} (h : pverify p pred xs = .ok rest a) :
    p xs = .ok rest a ∧ pred a = true := by
  unfold pverify at h
  split at h
  · next mid b hp =>
    split at h
    · next hpred => cases h; exact ⟨hp, hpred⟩
    · cases h
  · cases h
  · cases h

theorem stable_tagByte (b : Byte) : Stable (tagByte b) := by
  intro xs r v h
  rw [tagByte_ok h]
  refine ⟨[b], rfl, ?_, ?_⟩
  · intro m hm
    have : m = 0 := Nat.lt_one_iff.mp (by simpa using hm)
    subst this
    exact ⟨1, le_rfl, rfl⟩
  · intro k _
    simp [tagByte]

theorem stable_beU8 : Stable beU8 := by
  intro xs r v h
  rw [beU8_ok h]
  refine ⟨[v], rfl, ?_, ?_⟩
  · intro m hm
    have : m = 0 := Nat.lt_one_iff.mp (by simpa using hm)
    subst this
    exact ⟨1, le_rfl, rfl⟩
  · intro k _
    rfl

theorem stable_takeN (n : Nat) : Stable (takeN n) := by
  intro xs r v h
  obtain ⟨hn, hr, hv⟩ := takeN_ok h
  subst hr hv
  have hulen : (xs.take n).length = n := by
    simpa using Nat.min_eq_left hn
  refine ⟨xs.take n, (List.take_append_drop n xs).symm, ?_, ?_⟩
  · intro m hm
    rw [hulen] at hm
    refine ⟨n - m, by omega, ?_⟩
    have hmlen : (xs.take m).length = m := by
      simp only [List.length_take]
      omega
    unfold takeN
    rw [if_pos (by omega), hmlen]
  · intro k hk
    rw [List.length_drop] at hk
    unfold takeN
    have hlen : (xs.take n ++ (xs.drop n).take k).length = n + k := by
      rw [List.length_append, List.length_take, List.length_take,
        List.length_drop]
      omega
    rw [if_neg (by rw [hlen]; omega)]
    rw [List.drop_left' hulen, List.take_left' hulen]

theorem stable_pemit {α : Type} (c : PRes α) : Stable (pemit c) := by
  intro xs r v h
  unfold pemit at h
  split at h
  · next w a =>
    cases h
    exact ⟨[], rfl, fun m hm => by simp at hm, fun k _ => rfl⟩
  · cases h
  · cases h

theorem stable_pemitO {α : Type} (c : Option α) : Stable (pemitO c) := by
  intro xs r v h
  unfold pemitO at h
  split at h
  · cases h
    exact ⟨[], rfl, fun m hm => by simp at hm, fun k _ => rfl⟩
  · cases h

theorem stable_ppure {α : Type} (a : α) : Stable (ppure a) := by
  intro xs r v h
  cases h
  exact ⟨[], rfl, fun m hm => by simp at hm, fun k _ => rfl⟩

theorem stable_pbind {α β : Type} {p : ByteParse α} {f : α → ByteParse β}
    (hp : Stable p) (hf : ∀ a, Stable (f a)) : Stable (pbind p f) := by
  intro xs r v h
  obtain ⟨mid, a, h1, h2⟩ := pbind_ok h
  obtain ⟨u1, e1, inc1, ext1⟩ := hp _ _ _ h1
  obtain ⟨u2, e2, inc2, ext2⟩ := hf a _ _ _ h2
  have hmidlen : u2.length + r.length = mid.length := by
    rw [e2, List.length_append]
  refine ⟨u1 ++ u2, by rw [e1, e2, List.append_assoc], ?_, ?_⟩
  · intro m hm
    rw [List.length_append] at hm
    rcases Nat.lt_or_ge m u1.length with hm1 | hm1
    · obtain ⟨n, hn, hmore⟩ := inc1 m hm1
      exact ⟨n, hn, by unfold pbind; rw [hmore]⟩
    · have htake : xs.take m = u1 ++ mid.take (m - u1.length) := by
        rw [e1, take_append_left u1 mid hm1]
      have hp' := ext1 (m - u1.length) (by omega)
      obtain ⟨n, hn, hmore⟩ := inc2 (m - u1.length) (by omega)
      refine ⟨n, hn, ?_⟩
      unfold pbind
      rw [htake]
      simp only [hp', hmore]
  · intro k hk
    have hmid : mid.take (u2.length + k) = u2 ++ r.take k := by
      rw [e2, take_append_left u2 r (by omega), Nat.add_sub_cancel_left]
    have hp' := ext1 (u2.length + k) (by omega)
    rw [hmid] at hp'
    have hf' := ext2 k hk
    unfold pbind
    rw [List.append_assoc]
    simp only [hp', hf']

theorem stable_pverify {α : Type} {p : ByteParse α} (pred : α → Bool)
    (hp : Stable p) : Stable (pverify p pred) := by
  intro xs r v h
  obtain ⟨h1, hpred⟩ := pverify_ok h
  obtain ⟨u, e, inc, ext⟩ := hp _ _ _ h1
  refine ⟨u, e, ?_, ?_⟩
  · intro m hm
    obtain ⟨n, hn, hmore⟩ := inc m hm
    exact ⟨n, hn, by unfold pverify; rw [hmore]⟩
  · intro k hk
    have hx := ext k hk
    unfold pverify
    simp only [hx]
    rw [if_pos hpred]

theorem stable_checksumP : Stable checksumP :=
  stable_pbind (stable_tagByte 0x04) fun _ => stable_beU8

theorem stable_dataBlockP : Stable dataBlockP :=
  stable_pbind (stable_tagByte 0x02) fun _ =>
    stable_pbind stable_beU8 fun len => stable_takeN _

theorem checksumP_nil : checksumP [] = .more 1 := rfl

theorem checksumP_err_head {xs : List Byte} (h : checksumP xs = .err) :
    ∃ x t, xs = x :: t ∧ ∀ t2, checksumP (x :: t2) = .err := by
  match xs with
  | [] => cases h
  | x :: t =>
    refine ⟨x, t, rfl, ?_⟩
    intro t2
    by_cases hx : x = (0x04 : Byte)
    · exfalso
      simp only [checksumP, pbind, tagByte, if_pos hx] at h
      match t, h with
      | [], h => simp [beU8] at h
      | y :: t1, h => simp [beU8] at h
    · simp [checksumP, pbind, tagByte, hx]

theorem stable_manyBlocks : Stable manyBlocks := by
  suffices H : ∀ N xs r v, xs.length ≤ N → manyBlocks xs = .ok r v →
      ∃ u, xs = u ++ r ∧
        (∀ m, m < u.length → ∃ n, 1 ≤ n ∧ manyBlocks (xs.take m) = .more n) ∧
        (∀ k, k ≤ r.length → manyBlocks (u ++ r.take k) = .ok (r.take k) v) by
    intro xs r v h
    exact H xs.length xs r v le_rfl h
  intro N
  induction N with
  | zero =>
    intro xs r v hlen h
    have hx : xs = [] := List.length_eq_zero.mp (Nat.le_zero.mp hlen)
    subst hx
    rw [manyBlocks_eq] at h
    simp [checksumP, pbind, tagByte] at h
  | succ N ih =>
    intro xs r v hlen h
    rw [manyBlocks_eq] at h
    cases hcs : checksumP xs with
    | ok rest0 cs =>
      simp only [hcs] at h
      cases h
      obtain ⟨u0, e0, inc0, ext0⟩ := stable_checksumP _ _ _ hcs
      refine ⟨u0, e0, ?_, ?_⟩
      · intro m hm
        obtain ⟨n, hn, hmore⟩ := inc0 m hm
        exact ⟨n, hn, by rw [manyBlocks_eq]; simp only [hmore]⟩
      · intro k hk
        rw [manyBlocks_eq]
        simp only [ext0 k hk]
    | more n => simp only [hcs] at h; exact PRes.noConfusion h
    | err =>
      simp only [hcs] at h
      cases hdb : dataBlockP xs with
      | ok rest1 blk =>
        simp only [hdb] at h
        cases hrec : manyBlocks rest1 with
        | ok rest2 bc =>
          obtain ⟨blks, cs⟩ := bc
          simp only [hrec] at h
          cases h
          obtain ⟨u1, e1, inc1, ext1⟩ := stable_dataBlockP _ _ _ hdb
          have hshrink := dataBlockP_shrinks hdb
          obtain ⟨u2, e2, inc2, ext2⟩ :=
            ih rest1 r (blks, cs) (by omega) hrec
          obtain ⟨x, t, hxt, hxerr⟩ := checksumP_err_head hcs
          have hu1len : 1 ≤ u1.length := by
            have : xs.length = u1.length + rest1.length := by
              rw [e1, List.length_append]
            omega
          have hu1head : ∃ u1t, u1 = x :: u1t := by
            match u1, hu1len with
            | y :: u1t, _ =>
              refine ⟨u1t, ?_⟩
              have : (y :: u1t) ++ rest1 = x :: t := by rw [← e1, hxt]
              cases this
              rfl
          obtain ⟨u1t, hu1⟩ := hu1head
          have hmidlen : u2.length + r.length = rest1.length := by
            rw [e2, List.length_append]
          refine ⟨u1 ++ u2, by rw [e1, e2, List.append_assoc], ?_, ?_⟩
          · intro m hm
            rw [List.length_append] at hm
            rcases Nat.eq_zero_or_pos m with rfl | hm0
            · refine ⟨1, le_rfl, ?_⟩
              rw [List.take_zero, manyBlocks_eq]
              rfl
            · obtain ⟨m', rfl⟩ : ∃ m', m = m' + 1 := ⟨m - 1, by omega⟩
              have hcs' : checksumP (xs.take (m' + 1)) = .err := by
                rw [hxt, List.take_succ_cons]
                exact hxerr _
              rcases Nat.lt_or_ge (m' + 1) u1.length with hm1 | hm1
              · obtain ⟨n, hn, hmore⟩ := inc1 (m' + 1) hm1
                refine ⟨n, hn, ?_⟩
                rw [manyBlocks_eq]
                simp only [hcs', hmore]
              · have htake : xs.take (m' + 1)
                    = u1 ++ rest1.take (m' + 1 - u1.length) := by
                  rw [e1, take_append_left u1 rest1 hm1]
                have hd' := ext1 (m' + 1 - u1.length) (by omega)
                obtain ⟨n, hn, hmore⟩ := inc2 (m' + 1 - u1.length) (by omega)
                refine ⟨n, hn, ?_⟩
                rw [manyBlocks_eq, htake]
                rw [htake] at hcs'
                simp only [hcs', hd', hmore]
          · intro k hk
            have hmid : rest1.take (u2.length + k) = u2 ++ r.take k := by
              rw [e2, take_append_left u2 r (by omega), Nat.add_sub_cancel_left]
            have hd' := ext1 (u2.length + k) (by omega)
            rw [hmid] at hd'
            have hrec' := ext2 k hk
            have hcs'' : checksumP (u1 ++ u2 ++ r.take k) = .err := by
              rw [hu1, List.cons_append, List.cons_append]
              exact hxerr _
            rw [List.append_assoc] at hcs'' ⊢
            rw [manyBlocks_eq]
            simp only [hcs'', hd', hrec']
        | more n => simp only [hrec] at h; exact PRes.noConfusion h
        | err => simp only [hrec] at h; exact PRes.noConfusion h
      | more n => simp only [hdb] at h; exact PRes.noConfusion h
      | err => simp only [hdb] at h; exact PRes.noConfusion h

theorem stable_dataBlocksP : Stable dataBlocksP :=
  stable_pbind stable_manyBlocks fun bc => stable_pemitO _

theorem stable_headerP : Stable headerP :=
  stable_pbind (stable_tagByte 0x01) fun _ =>
    stable_pbind (stable_pverify _ stable_beU8) fun len =>
      stable_pbind (stable_takeN _) fun h => stable_pemit _

theorem stable_b2MessageBlock : Stable b2MessageBlock :=
  stable_pbind stable_headerP fun tv =>
    stable_pbind (stable_pverify _ stable_dataBlocksP) fun q => stable_ppure _

/-- C3: for a byte string the parser accepts as a complete message,
every proper prefix yields `Incomplete` with at least one byte needed
(never success, never a hard error), and supplying the missing bytes
completes with the same `CompressedMessage`. -/
theorem incremental_parsing {w : List Byte} {msg : CompressedMessage}
    (h : b2MessageBlock w = .ok [] msg) :
    (∀ m, m < w.length → ∃ n, 1 ≤ n ∧ b2MessageBlock (w.take m) = .more n) ∧
    (∀ m, b2MessageBlock (w.take m ++ w.drop m) = .ok [] msg) := by
  obtain ⟨u, e, inc, ext⟩ := stable_b2MessageBlock _ _ _ h
  have hu : u = w := by rw [e, List.append_nil]
  subst hu
  constructor
  · intro m hm
    exact inc m hm
  · intro m
    rw [List.take_append_drop]
    exact h

/-- C3 witness: the minimal accepted frame, cut after three bytes. -/
theorem incremental_parsing_witness :
    (∃ n, 1 ≤ n ∧
      b2MessageBlock (([0x01, 0x03, 0x00, 0x30, 0x00, 0x04, 0x00] :
        List Byte).take 3) = .more n) ∧
    b2MessageBlock (([0x01, 0x03, 0x00, 0x30, 0x00, 0x04, 0x00] :
        List Byte).take 3 ++ ([0x01, 0x03, 0x00, 0x30, 0x00, 0x04, 0x00] :
        List Byte).drop 3)
      = .ok [] (CompressedMessage.mk [] 0 0 0 []) := by
  have h := @incremental_parsing [0x01, 0x03, 0x00, 0x30, 0x00, 0x04, 0x00]
    (CompressedMessage.mk [] 0 0 0 []) (by decide)
  exact ⟨h.1 3 (by decide), h.2 3⟩

/-- C7: a successful `header` parse pins the length byte into `1..=88`. -/
theorem header_length_byte_bounds {data rest : List Byte}
    {tv : List Byte × Nat} (h : headerP data = .ok rest tv) :
    ∃ (len : Byte) (tail : List Byte),
      data = 0x01 :: len :: tail ∧ 1 ≤ len.val ∧ len.val ≤ 88 := by
  obtain ⟨m1, u, h1, h⟩ := pbind_ok h
  obtain ⟨m2, len, h2, h⟩ := pbind_ok h
  obtain ⟨hbe, hpred⟩ := pverify_ok h2
  obtain ⟨m3, slice, h3, h⟩ := pbind_ok h
  obtain ⟨hle, hdrop, hslice⟩ := takeN_ok h3
  have hup : len.val ≤ 88 := by simpa using hpred
  have hlow : 1 ≤ len.val := by
    rcases Nat.eq_zero_or_pos len.val with h0 | hpos
    · exfalso
      have hempty : slice = [] := by
        rw [hslice, h0, List.take_zero]
      rw [hempty] at h
      simp [pemit, headerInner] at h
    · exact hpos
  exact ⟨len, m2, by rw [tagByte_ok h1, beU8_ok hbe], hlow, hup⟩

/-- C7 witness: a concrete header with length byte 4 parses, so the
bounds theorem applies to it. -/
theorem header_length_byte_bounds_witness :
    ∃ (len : Byte) (tail : List Byte),
      ([0x01, 0x04, 0x41, 0x00, 0x30, 0x00] : List Byte)
        = 0x01 :: len :: tail ∧ 1 ≤ len.val ∧ len.val ≤ 88 :=
  @header_length_byte_bounds [0x01, 0x04, 0x41, 0x00, 0x30, 0x00]
    [] ([0x41], 0) (by decide)

/-- C8: a data block whose length byte is `k` consumes exactly `k`
payload bytes, with `k = 0` standing for 256; the block value is exactly
those bytes and the remaining input is what follows them. -/
theorem data_block_length_semantics (len : Byte) (rest : List Byte)
    (h : (if len.val = 0 then 256 else len.val) ≤ rest.length) :
    dataBlockP (0x02 :: len :: rest)
      = .ok (rest.drop (if len.val = 0 then 256 else len.val))
            (rest.take (if len.val = 0 then 256 else len.val)) := by
  have e1 : dataBlockP (0x02 :: len :: rest)
      = takeN (if len.val = 0 then 256 else len.val) rest := by
    simp [dataBlockP, pbind, tagByte, beU8]
  rw [e1]
  unfold takeN
  rw [if_neg (Nat.not_lt.mpr h)]

theorem foldl_add_mod (l : List Byte) (x : Nat) (hx : x < 256) :
    l.foldl (fun a b => (a + b.val) % 256) x = (x + (l.map Fin.val).sum) % 256 := by
  induction l generalizing x with
  | nil => simpa using (Nat.mod_eq_of_lt hx).symm
  | cons b t ih =>
    simp only [List.foldl_cons, List.map_cons, List.sum_cons]
    rw [ih ((x + b.val) % 256) (Nat.mod_lt _ (by omega))]
    rw [Nat.mod_add_mod]
    omega

/-- C2: every frame accepted by `b2_message_block` satisfies the CRC-16
identity over the little-endian size and the concatenated blocks, and
the 8-bit sum of the CRC bytes, the size bytes, the compressed bytes and
the trailing checksum byte vanishes mod 256. -/
theorem frame_integrity {data rest : List Byte} {msg : CompressedMessage}
    (h : b2MessageBlock data = .ok rest msg) :
    crc16Of (le32Bytes msg.uncompressedSize ++ msg.blocks.flatten.map Fin.val)
        = msg.crc16 ∧
    ∃ cs : Byte,
      (∃ hrest tv, headerP data = .ok hrest tv ∧
        dataBlocksP hrest
          = .ok rest (msg.crc16, msg.uncompressedSize, msg.blocks, cs)) ∧
      (msg.crc16 % 256 + msg.crc16 / 256 % 256
        + (le32Bytes msg.uncompressedSize).sum
        + (msg.blocks.flatten.map Fin.val).sum + cs.val) % 256 = 0 := by
  obtain ⟨hrest, tv, h1, h⟩ := pbind_ok h
  obtain ⟨rest2, q, h2, h⟩ := pbind_ok h
  obtain ⟨hdb, hfc⟩ := pverify_ok h2
  obtain ⟨crc, size, blocks, cs⟩ := q
  simp only [ppure, PRes.ok.injEq] at h
  obtain ⟨hr, hmsg⟩ := h
  subst hr
  have hfields : msg.crc16 = crc ∧ msg.uncompressedSize = size
      ∧ msg.blocks = blocks ∧ msg.title = tv.1 ∧ msg.offset = tv.2 := by
    rw [← hmsg]; exact ⟨rfl, rfl, rfl, rfl, rfl⟩
  obtain ⟨hc, hs, hb2, -, -⟩ := hfields
  simp only [frameCheck, Bool.and_eq_true, decide_eq_true_eq] at hfc
  obtain ⟨hsum, hcrc⟩ := hfc
  subst hc hs hb2
  refine ⟨hcrc, cs, ⟨hrest, tv, h1, hdb⟩, ?_⟩
  rw [foldl_add_mod _ _ (Nat.mod_lt _ (by omega))] at hsum
  simp only [le32Bytes, List.sum_cons, List.sum_nil]
  omega

/-- C2 witness: a concrete minimal accepted frame (empty title, offset 0,
no data blocks, checksum byte 0), to which the integrity theorem
applies. -/
theorem frame_integrity_witness :
    crc16Of (le32Bytes (CompressedMessage.mk [] 0 0 0 []).uncompressedSize
        ++ (CompressedMessage.mk [] 0 0 0 []).blocks.flatten.map Fin.val)
      = (CompressedMessage.mk [] 0 0 0 []).crc16 ∧
    ∃ cs : Byte,
      (∃ hrest tv, headerP [0x01, 0x03, 0x00, 0x30, 0x00, 0x04, 0x00]
          = .ok hrest tv ∧
        dataBlocksP hrest
          = .ok [] ((CompressedMessage.mk [] 0 0 0 []).crc16,
              (CompressedMessage.mk [] 0 0 0 []).uncompressedSize,
              (CompressedMessage.mk [] 0 0 0 []).blocks, cs)) ∧
      ((CompressedMessage.mk [] 0 0 0 []).crc16 % 256
        + (CompressedMessage.mk [] 0 0 0 []).crc16 / 256 % 256
        + (le32Bytes (CompressedMessage.mk [] 0 0 0 []).uncompressedSize).sum
        + ((CompressedMessage.mk [] 0 0 0 []).blocks.flatten.map Fin.val).sum
        + cs.val) % 256 = 0 :=
  @frame_integrity [0x01, 0x03, 0x00, 0x30, 0x00, 0x04, 0x00]
    [] (CompressedMessage.mk [] 0 0 0 []) (by decide)

/-- C8 witness: instantiating at length byte 0 with 256 payload bytes
followed by a trailing byte. -/
theorem data_block_length_semantics_witness :
    dataBlockP (0x02 :: (0 : Byte) :: (List.replicate 256 (7 : Byte) ++ [9]))
      = .ok ((List.replicate 256 (7 : Byte) ++ [9]).drop
              (if (0 : Byte).val = 0 then 256 else (0 : Byte).val))
            ((List.replicate 256 (7 : Byte) ++ [9]).take
              (if (0 : Byte).val = 0 then 256 else (0 : Byte).val)) :=
  data_block_length_semantics 0 (List.replicate 256 (7 : Byte) ++ [9])
    (by
      rw [if_pos (by decide : ((0 : Byte)).val = 0), List.length_append,
        List.length_replicate]
      omega)

/-! ## src/fbb.rs: the FS selection elements -/

/-- nom's `alt`: try the second parser only when the first reports a
hard error; `Incomplete` propagates immediately. -/
def palt {α : Type} (p q : ByteParse α) : ByteParse α :=
  fun xs =>
    match p xs with
    | .err => q xs
    | other => other

/-- Mapping over a parser result (nom's `map`/`value`). -/
def pmapP {α β : Type} (p : ByteParse α) (f : α → β) : ByteParse β :=
  fun xs =>
    match p xs with
    | .ok r a => .ok r (f a)
    | .more n => .more n
    | .err => .err

/-- nom's streaming `take_while_m_n(m, n, cond)`: split at the first
non-matching byte when there is one (a hard error below `m` matches, a
split capped at `n`), and report `Incomplete` when the whole input
matches but is shorter than `n`. -/
def takeWhileMN (m n : Nat) (pred : Byte → Bool) : ByteParse (List Byte) :=
  fun xs =>
    let idx := (xs.takeWhile pred).length
    if idx = xs.length then
      if n ≤ xs.length then .ok (xs.drop n) (xs.take n) else .more 1
    else
      if idx < m then .err
      else if idx ≤ n then .ok (xs.drop idx) (xs.take idx)
      else .ok (xs.drop n) (xs.take n)

/-- `MessageChoice` of src/fbb.rs (the `offset` field is a `u16`). -/
inductive MessageChoice : Type where
  | accept : Nat → MessageChoice
  | defer : MessageChoice
  | reject : MessageChoice
deriving DecidableEq

/-- `selection_element` of src/fbb.rs: `+`/`Y`/`H` accept at offset 0;
`!`/`A` followed by 1-6 digits parsed with `u16::from_str_radix` (values
above `u16::MAX` are a `map_res` error); `=`/`L` defer; `-`/`N`/`R`/`E`
reject. -/
def selectionElement : ByteParse MessageChoice :=
  palt
    (pmapP (palt (tagByte 0x2B) (palt (tagByte 0x59) (tagByte 0x48)))
      (fun _ => .accept 0))
    (palt
      (pbind (palt (tagByte 0x21) (tagByte 0x41)) fun _ =>
        pbind (takeWhileMN 1 6 isDigitByte) fun ds =>
        pemitO (if digitsVal ds < 65536 then some (MessageChoice.accept (digitsVal ds)) else none))
      (palt
        (pmapP (palt (tagByte 0x3D) (tagByte 0x4C)) (fun _ => .defer))
        (pmapP (palt (tagByte 0x2D)
            (palt (tagByte 0x4E) (palt (tagByte 0x52) (tagByte 0x45))))
          (fun _ => .reject))))

theorem takeWhile_append_all {α : Type} {p : α → Bool} {l1 : List α}
    (h : ∀ b ∈ l1, p b = true) (l2 : List α) :
    (l1 ++ l2).takeWhile p = l1 ++ l2.takeWhile p := by
  induction l1 with
  | nil => simp
  | cons b t ih =>
    simp [List.takeWhile_cons, h b (by simp),
      ih (fun x hx => h x (by simp [hx]))]

theorem takeWhileLenLe (p : Byte → Bool) (l : List Byte) :
    (l.takeWhile p).length ≤ l.length := by
  induction l with
  | nil => simp
  | cons b t ih =>
    simp only [List.takeWhile_cons]
    split
    · simpa using ih
    · simp

/-- The behaviour of the streaming `take_while_m_n(1, 6, is_digit)` on a
digit run followed by a delimiter (or of full width 6). -/
theorem takeWhileMN_digits {ds rest : List Byte}
    (hne : ds ≠ []) (hlen : ds.length ≤ 6)
    (hdig : ∀ b ∈ ds, isDigitByte b = true)
    (hstop : ds.length = 6 ∨
      ∃ b rest2, rest = b :: rest2 ∧ isDigitByte b = false) :
    takeWhileMN 1 6 isDigitByte (ds ++ rest) = .ok rest ds := by
  have htw : (ds ++ rest).takeWhile isDigitByte
      = ds ++ rest.takeWhile isDigitByte := takeWhile_append_all hdig rest
  have hlen1 : 1 ≤ ds.length := by
    cases ds with
    | nil => exact absurd rfl hne
    | cons a t => simp
  rcases hstop with h6 | ⟨b, rest2, hrest, hb⟩
  · have hdrop : (ds ++ rest).drop 6 = rest := by
      rw [← h6]; exact List.drop_left ds rest
    have htake : (ds ++ rest).take 6 = ds := by
      rw [← h6]; exact List.take_left ds rest
    unfold takeWhileMN
    simp only [htw, List.length_append]
    by_cases hall : (rest.takeWhile isDigitByte).length = rest.length
    · rw [if_pos (by omega), if_pos (by omega), hdrop, htake]
    · have hlt : (rest.takeWhile isDigitByte).length ≤ rest.length :=
        takeWhileLenLe _ rest
      rw [if_neg (by omega), if_neg (by omega)]
      by_cases hz : (rest.takeWhile isDigitByte).length = 0
      · rw [if_pos (by omega)]
        rw [show ds.length + (rest.takeWhile isDigitByte).length = 6 by omega]
        rw [hdrop, htake]
      · rw [if_neg (by omega), hdrop, htake]
  · subst hrest
    have hstop2 : (b :: rest2).takeWhile isDigitByte = [] := by
      simp [List.takeWhile_cons, hb]
    unfold takeWhileMN
    simp only [htw, hstop2, List.append_nil, List.length_append,
      List.length_cons, List.length_nil]
    rw [if_neg (by omega), if_neg (by omega), if_pos hlen]
    rw [List.drop_left ds _, List.take_left ds _]

/-- C5 (amended): the selection-element mapping, with accepted offsets
bounded by `u16::MAX = 65535` rather than 999999. -/
theorem selection_element_mapping :
    (∀ c rest, (c = (0x2B : Byte) ∨ c = 0x59 ∨ c = 0x48) →
      selectionElement (c :: rest) = .ok rest (.accept 0)) ∧
    (∀ (c : Byte) ds rest, (c = 0x21 ∨ c = 0x41) → ds ≠ [] →
      ds.length ≤ 6 → (∀ b ∈ ds, isDigitByte b = true) →
      (ds.length = 6 ∨
        ∃ b rest2, rest = b :: rest2 ∧ isDigitByte b = false) →
      digitsVal ds ≤ 65535 →
      selectionElement (c :: (ds ++ rest))
        = .ok rest (.accept (digitsVal ds))) ∧
    (∀ c rest, (c = (0x3D : Byte) ∨ c = 0x4C) →
      selectionElement (c :: rest) = .ok rest .defer) ∧
    (∀ c rest, (c = (0x2D : Byte) ∨ c = 0x4E ∨ c = 0x52 ∨ c = 0x45) →
      selectionElement (c :: rest) = .ok rest .reject) := by
  refine ⟨?_, ?_, ?_, ?_⟩
  · rintro c rest (rfl | rfl | rfl) <;>
      simp [selectionElement, palt, pmapP, tagByte]
  · rintro c ds rest hc hne hlen hdig hstop hbound
    have htk := takeWhileMN_digits hne hlen hdig hstop
    have hv : (if digitsVal ds < 65536
          then some (MessageChoice.accept (digitsVal ds)) else none)
        = some (MessageChoice.accept (digitsVal ds)) := if_pos (by omega)
    rcases hc with rfl | rfl <;>
      simp [selectionElement, palt, pmapP, pbind, tagByte, pemitO, htk, hv]
  · rintro c rest (rfl | rfl) <;>
      simp [selectionElement, palt, pmapP, pbind, tagByte]
  · rintro c rest (rfl | rfl | rfl | rfl) <;>
      simp [selectionElement, palt, pmapP, pbind, tagByte]

/-- C5 counterexample: the claim as stated admits offsets up to 999999,
but `!70000\r` (a 5-digit offset below 999999 yet above `u16::MAX`) is a
hard parse error, not `Accept` at 70000. -/
theorem selection_element_counterexample :
    selectionElement [0x21, 0x37, 0x30, 0x30, 0x30, 0x30, 0x0D]
      = .err := by decide

set_option maxRecDepth 4000 in
/-- C5 witness: `!12345\r` parses to Accept at offset 12345. -/
theorem selection_element_mapping_witness :
    selectionElement ((0x21 : Byte) ::
        ([0x31, 0x32, 0x33, 0x34, 0x35] ++ [0x0D]))
      = .ok [0x0D] (.accept (digitsVal [0x31, 0x32, 0x33, 0x34, 0x35])) :=
  selection_element_mapping.2.1 0x21 [0x31, 0x32, 0x33, 0x34, 0x35] [0x0D]
    (Or.inl rfl) (by decide) (by decide) (by decide)
    (Or.inr ⟨0x0D, [], rfl, by decide⟩) (by decide)

/-! ## src/types.rs: StationId normalization

The validator is the `lazy_regex` singleton
`STATION = ([0-9]?[A-Za-z]+)([0-9]+)([A-Za-z][A-Za-z0-9]*)` and
`StationId::normalize` checks `STATION.is_match(s)` — an UNANCHORED
search — then upper-cases the input when it contains a lowercase ASCII
byte.  `none` stands for the `InvalidStationId` error. -/

def isAlphaChar (c : Char) : Bool :=
  (65 ≤ c.toNat && c.toNat ≤ 90) || (97 ≤ c.toNat && c.toNat ≤ 122)

def isDigitChar (c : Char) : Bool := 48 ≤ c.toNat && c.toNat ≤ 57

def isAlnumChar (c : Char) : Bool := isAlphaChar c || isDigitChar c

def isLowerChar (c : Char) : Bool := 97 ≤ c.toNat && c.toNat ≤ 122

/-- Does `[A-Za-z]+[0-9]+[A-Za-z][A-Za-z0-9]*` match a prefix here?
Since the trailing class may match the empty string and the classes are
disjoint, this holds exactly when a nonempty letter run, a nonempty
digit run and one more letter open the list. -/
def matchCore (l : List Char) : Bool :=
  let r1 := l.dropWhile isAlphaChar
  decide (l.takeWhile isAlphaChar ≠ []) &&
    (decide (r1.takeWhile isDigitChar ≠ []) &&
      match r1.dropWhile isDigitChar with
      | c :: _ => isAlphaChar c
      | [] => false)

/-- Does the STATION regex match starting at this position?  The leading
`[0-9]?` consumes the head exactly when it is a digit (when it is not,
only the empty branch can continue). -/
def matchAt (l : List Char) : Bool :=
  match l with
  | [] => false
  | c :: t => if isDigitChar c then matchCore t else matchCore (c :: t)

/-- `Regex::is_match`: an unanchored search over every start position. -/
def hasStationMatch : List Char → Bool
  | [] => false
  | c :: t => matchAt (c :: t) || hasStationMatch t

/-- `StationId::normalize` of src/types.rs: require an (unanchored)
regex match, then upper-case when any lowercase ASCII byte occurs,
otherwise borrow the input unchanged. -/
def stationIdNormalize (s : List Char) : Option (List Char) :=
  if hasStationMatch s then
    if s.any isLowerChar then some (s.map Char.toUpper) else some s
  else none

/-- The pattern `[0-9]?[A-Za-z]+[0-9]+[A-Za-z][A-Za-z0-9]*` as the spec
words it, as a declarative decomposition of a matched string. -/
def StationPat (m : List Char) : Prop :=
  ∃ d ls ds c tl, m = d ++ ls ++ ds ++ c :: tl ∧
    (d = [] ∨ ∃ cd, d = [cd] ∧ isDigitChar cd = true) ∧
    ls ≠ [] ∧ (∀ x ∈ ls, isAlphaChar x = true) ∧
    ds ≠ [] ∧ (∀ x ∈ ds, isDigitChar x = true) ∧
    isAlphaChar c = true ∧ (∀ x ∈ tl, isAlnumChar x = true)

theorem dropWhile_append_all {α : Type} {p : α → Bool} {l1 : List α}
    (h : ∀ b ∈ l1, p b = true) (l2 : List α) :
    (l1 ++ l2).dropWhile p = l2.dropWhile p := by
  induction l1 with
  | nil => simp
  | cons b t ih =>
    simp [List.dropWhile_cons, h b (by simp),
      ih (fun x hx => h x (by simp [hx]))]

theorem dropWhile_cons_neg {α : Type} {p : α → Bool} {c : α}
    (h : p c = false) (t : List α) : (c :: t).dropWhile p = c :: t := by
  simp [List.dropWhile_cons, h]

theorem digit_not_alpha {c : Char} (h : isDigitChar c = true) :
    isAlphaChar c = false := by
  simp only [isDigitChar, Bool.and_eq_true, decide_eq_true_eq] at h
  simp only [isAlphaChar, Bool.or_eq_false_iff, Bool.and_eq_false_iff,
    decide_eq_false_iff_not, Nat.not_le]
  omega

theorem alpha_not_digit {c : Char} (h : isAlphaChar c = true) :
    isDigitChar c = false := by
  simp only [isAlphaChar, Bool.or_eq_true, Bool.and_eq_true,
    decide_eq_true_eq] at h
  simp only [isDigitChar, Bool.and_eq_false_iff,
    decide_eq_false_iff_not, Nat.not_le]
  omega

/-- A prefix match decomposes the list as the pattern core demands. -/
theorem matchCore_decompose {l : List Char} (h : matchCore l = true) :
    ∃ ls ds c tl, l = ls ++ ds ++ c :: tl ∧
      ls ≠ [] ∧ (∀ x ∈ ls, isAlphaChar x = true) ∧
      ds ≠ [] ∧ (∀ x ∈ ds, isDigitChar x = true) ∧
      isAlphaChar c = true := by
  simp only [matchCore, Bool.and_eq_true, decide_eq_true_eq] at h
  obtain ⟨hls, hds, hmatch⟩ := h
  cases hdrop : (l.dropWhile isAlphaChar).dropWhile isDigitChar with
  | nil => rw [hdrop] at hmatch; cases hmatch
  | cons c tl =>
    rw [hdrop] at hmatch
    have e : l = l.takeWhile isAlphaChar
        ++ ((l.dropWhile isAlphaChar).takeWhile isDigitChar
          ++ ((l.dropWhile isAlphaChar).dropWhile isDigitChar)) := by
      rw [List.takeWhile_append_dropWhile, List.takeWhile_append_dropWhile]
    refine ⟨l.takeWhile isAlphaChar,
      (l.dropWhile isAlphaChar).takeWhile isDigitChar, c, tl, ?_, hls,
      fun x hx => List.mem_takeWhile_imp hx, hds,
      fun x hx => List.mem_takeWhile_imp hx, hmatch⟩
    rw [List.append_assoc]
    conv_lhs => rw [e]
    rw [hdrop]

/-- Conversely, the decomposition makes the prefix match succeed. -/
theorem matchCore_of_decompose {ls ds : List Char} {c : Char}
    (rest : List Char) (hls : ls ≠ []) (hla : ∀ x ∈ ls, isAlphaChar x = true)
    (hds : ds ≠ []) (hda : ∀ x ∈ ds, isDigitChar x = true)
    (hc : isAlphaChar c = true) :
    matchCore (ls ++ ds ++ c :: rest) = true := by
  obtain ⟨d0, ds', rfl⟩ : ∃ d0 ds', ds = d0 :: ds' := by
    cases ds with
    | nil => exact absurd rfl hds
    | cons a t => exact ⟨a, t, rfl⟩
  have hd0 : isDigitChar d0 = true := hda d0 (by simp)
  have e1 : (ls ++ (d0 :: ds') ++ c :: rest).takeWhile isAlphaChar = ls := by
    rw [List.append_assoc, takeWhile_append_all hla]
    simp [List.takeWhile_cons, digit_not_alpha hd0]
  have e2 : (ls ++ (d0 :: ds') ++ c :: rest).dropWhile isAlphaChar
      = (d0 :: ds') ++ c :: rest := by
    rw [List.append_assoc, dropWhile_append_all hla]
    exact dropWhile_cons_neg (digit_not_alpha hd0) _
  have e3 : ((d0 :: ds') ++ c :: rest).takeWhile isDigitChar = d0 :: ds' := by
    rw [takeWhile_append_all hda]
    simp [List.takeWhile_cons, alpha_not_digit hc]
  have e4 : ((d0 :: ds') ++ c :: rest).dropWhile isDigitChar = c :: rest := by
    rw [dropWhile_append_all hda]
    exact dropWhile_cons_neg (alpha_not_digit hc) _
  simp only [matchCore, e1, e2, e3, e4]
  simp [hls, hc]

theorem hasStationMatch_suffix {pre rest : List Char}
    (h : hasStationMatch rest = true) :
    hasStationMatch (pre ++ rest) = true := by
  induction pre with
  | nil => simpa using h
  | cons x t ih =>
    rw [List.cons_append, hasStationMatch]
    rw [ih]
    simp

/-- The scanner agrees with the declarative unanchored-search reading:
some substring matches the STATION pattern. -/
theorem hasStationMatch_iff (s : List Char) :
    hasStationMatch s = true ↔
      ∃ pre m post, s = pre ++ m ++ post ∧ StationPat m := by
  constructor
  · intro h
    induction s with
    | nil => cases h
    | cons c t ih =>
      rw [hasStationMatch, Bool.or_eq_true] at h
      rcases h with h | h
      · rw [matchAt] at h
        split at h
        · next hdig =>
          obtain ⟨ls, ds, c2, tl, e, hls, hla, hds, hda, hc2⟩ :=
            matchCore_decompose h
          refine ⟨[], [c] ++ ls ++ ds ++ [c2], tl, ?_, ?_⟩
          · simp [e]
          · exact ⟨[c], ls, ds, c2, [], by simp,
              Or.inr ⟨c, rfl, hdig⟩, hls, hla, hds, hda, hc2, by simp⟩
        · next hdig =>
          obtain ⟨ls, ds, c2, tl, e, hls, hla, hds, hda, hc2⟩ :=
            matchCore_decompose h
          refine ⟨[], ls ++ ds ++ [c2], tl, ?_, ?_⟩
          · simp [e]
          · exact ⟨[], ls, ds, c2, [], by simp, Or.inl rfl,
              hls, hla, hds, hda, hc2, by simp⟩
      · obtain ⟨pre, m, post, e, hm⟩ := ih h
        exact ⟨c :: pre, m, post, by simp [e], hm⟩
  · rintro ⟨pre, m, post, rfl, d, ls, ds, c, tl, rfl, hd, hls, hla, hds,
      hda, hc, htl⟩
    rw [List.append_assoc]
    apply hasStationMatch_suffix
    have halnum : matchCore (ls ++ ds ++ c :: (tl ++ post)) = true :=
      matchCore_of_decompose (tl ++ post) hls hla hds hda hc
    rcases hd with rfl | ⟨cd, rfl, hcd⟩
    · obtain ⟨l0, ls', rfl⟩ : ∃ l0 ls', ls = l0 :: ls' := by
        cases ls with
        | nil => exact absurd rfl hls
        | cons a t => exact ⟨a, t, rfl⟩
      have hl0 : isAlphaChar l0 = true := hla l0 (by simp)
      rw [show ([] ++ (l0 :: ls') ++ ds ++ c :: tl ++ post : List Char)
          = l0 :: (ls' ++ ds ++ c :: (tl ++ post)) by simp]
      rw [hasStationMatch, matchAt, if_neg (by rw [alpha_not_digit hl0]; simp)]
      rw [show l0 :: (ls' ++ ds ++ c :: (tl ++ post))
          = (l0 :: ls') ++ ds ++ c :: (tl ++ post) by simp]
      rw [halnum]
      simp
    · rw [show ([cd] ++ ls ++ ds ++ c :: tl ++ post : List Char)
          = cd :: (ls ++ ds ++ c :: (tl ++ post)) by simp]
      rw [hasStationMatch, matchAt, if_pos hcd, halnum]
      simp

theorem toUpper_eq_self {c : Char} (h : isLowerChar c = false) :
    c.toUpper = c := by
  simp only [isLowerChar, Bool.and_eq_false_iff, decide_eq_false_iff_not,
    Nat.not_le] at h
  unfold Char.toUpper
  rw [if_neg (by omega)]

theorem map_toUpper_no_lower {s : List Char}
    (h : s.any isLowerChar = false) : s.map Char.toUpper = s := by
  induction s with
  | nil => rfl
  | cons c t ih =>
    rw [List.any_cons, Bool.or_eq_false_iff] at h
    rw [List.map_cons, toUpper_eq_self h.1, ih h.2]

/-- C6 (amended): `StationId` construction succeeds exactly when SOME
SUBSTRING of the input matches
`[0-9]?[A-Za-z]+[0-9]+[A-Za-z][A-Za-z0-9]*` (the regex search is
unanchored, so the whole string need not have that shape), and then the
stored value is the ASCII-upper-case canonicalization of the input;
otherwise it fails with `InvalidStationId`. -/
theorem station_normalize_characterization :
    (∀ s : List Char, (stationIdNormalize s).isSome = true ↔
      ∃ pre m post, s = pre ++ m ++ post ∧ StationPat m) ∧
    (∀ s out, stationIdNormalize s = some out → out = s.map Char.toUpper) := by
  constructor
  · intro s
    rw [← hasStationMatch_iff]
    unfold stationIdNormalize
    constructor
    · intro h
      by_contra hmatch
      rw [if_neg (by simpa using hmatch)] at h
      cases h
    · intro h
      rw [if_pos h]
      by_cases hlow : s.any isLowerChar <;> simp [hlow]
  · intro s out h
    unfold stationIdNormalize at h
    split at h
    · split at h
      · cases h
        rfl
      · next hlow =>
        cases h
        rw [map_toUpper_no_lower (by simpa using hlow)]
    · cases h

/-- C6 counterexample: `?a1b?` does not match the pattern as a whole
string (it starts with `?`), yet construction succeeds, returning the
upper-cased `?A1B?`. -/
theorem station_normalize_counterexample :
    stationIdNormalize ['?', 'a', '1', 'b', '?']
        = some ['?', 'A', '1', 'B', '?'] ∧
    ¬ StationPat ['?', 'a', '1', 'b', '?'] := by
  constructor
  · decide
  · rintro ⟨d, ls, ds, c, tl, hm, hd, hls, hla, -, -, -, -⟩
    rcases hd with rfl | ⟨cd, rfl, hcd⟩
    · obtain ⟨l0, ls', rfl⟩ : ∃ l0 ls', ls = l0 :: ls' := by
        cases ls with
        | nil => exact absurd rfl hls
        | cons a t => exact ⟨a, t, rfl⟩
      simp only [List.nil_append, List.cons_append, List.cons.injEq] at hm
      have := hla l0 (by simp)
      rw [← hm.1] at this
      exact absurd this (by decide)
    · simp only [List.cons_append, List.singleton_append,
        List.cons.injEq] at hm
      rw [← hm.1] at hcd
      exact absurd hcd (by decide)

/-- C6 witness: the characterization applied to the callsign `kc1gsl`,
which the unanchored pattern accepts and which upper-cases to
`KC1GSL`. -/
theorem station_normalize_characterization_witness :
    ((stationIdNormalize ['k', 'c', '1', 'g', 's', 'l']).isSome = true ↔
      ∃ pre m post, ['k', 'c', '1', 'g', 's', 'l'] = pre ++ m ++ post ∧
        StationPat m) ∧
    (stationIdNormalize ['k', 'c', '1', 'g', 's', 'l']
        = some ['K', 'C', '1', 'G', 'S', 'L'] →
      ['K', 'C', '1', 'G', 'S', 'L']
        = ['k', 'c', '1', 'g', 's', 'l'].map Char.toUpper) :=
  ⟨station_normalize_characterization.1 ['k', 'c', '1', 'g', 's', 'l'],
    station_normalize_characterization.2 ['k', 'c', '1', 'g', 's', 'l']
      ['K', 'C', '1', 'G', 'S', 'L']⟩

/-! ## src/modem/vara.rs: command rendering

The `Display` implementations of `Command`, `ConnectCommand`,
`ConnectPath`, `MyCallSigns`, `ListenMode`, `CompressionMode` and
`BandwidthMode`, plus the `write!(&mut cmd_buffer, "..\r", command)` of
`manage_modem_thread`.  Station ids are rendered strings here. -/

inductive ListenMode : Type where
  | disable | cq | enable
deriving DecidableEq

def displayListenMode : ListenMode → String
  | .disable => "OFF"
  | .cq => "CQ"
  | .enable => "ON"

inductive CompressionMode : Type where
  | off | text | files
deriving DecidableEq

def displayCompressionMode : CompressionMode → String
  | .off => "OFF"
  | .text => "TEXT"
  | .files => "FILES"

inductive BandwidthMode : Type where
  | narrow | wide | tactical
deriving DecidableEq

def displayBandwidthMode : BandwidthMode → String
  | .narrow => "500"
  | .wide => "2300"
  | .tactical => "2750"

structure MyCallSigns : Type where
  primary : String
  aliases : List String
deriving DecidableEq

def displayMyCallSigns (m : MyCallSigns) : String :=
  m.aliases.foldl (fun acc q => acc ++ " " ++ q) m.primary

inductive ConnectPath : Type where
  | direct : ConnectPath
  | oneHop : String → ConnectPath
  | twoHops : String → String → ConnectPath
deriving DecidableEq

/-- `Display for ConnectPath`: note the source writes `" via ..."` for
one digipeater but `"via ..."` (no leading space) for two. -/
def displayConnectPath : ConnectPath → String
  | .direct => ""
  | .oneHop d => " via " ++ d
  | .twoHops a b => "via " ++ a ++ " " ++ b

structure ConnectCommand : Type where
  origin : String
  target : String
  path : ConnectPath
deriving DecidableEq

def displayConnectCommand (c : ConnectCommand) : String :=
  c.origin ++ " " ++ c.target ++ displayConnectPath c.path

inductive Command : Type where
  | listen : ListenMode → Command
  | connect : ConnectCommand → Command
  | disconnect : Command
  | abort : Command
  | setCall : MyCallSigns → Command
  | setCompression : CompressionMode → Command
  | setBandwidth : BandwidthMode → Command
deriving DecidableEq

def displayCommand : Command → String
  | .listen m => "LISTEN " ++ displayListenMode m
  | .connect c => "CONNECT " ++ displayConnectCommand c
  | .disconnect => "DISCONNECT"
  | .abort => "ABORT"
  | .setCall m => "MYCALL " ++ displayMyCallSigns m
  | .setCompression m => "COMPRESSION " ++ displayCompressionMode m
  | .setBandwidth m => "BW" ++ displayBandwidthMode m

/-- The control line written by `manage_modem_thread`. -/
def renderCommandLine (c : Command) : String := displayCommand c ++ "\r"

/-- C10: the `TwoHops` connect path is rendered WITHOUT the space before
`via`, so the rendered line is not the space-separated form of the
claim: the spec-shaped line would read `CONNECT KC1GSL KW1U via W1AW
W2XYZ` but the code produces `CONNECT KC1GSL KW1Uvia W1AW W2XYZ`. -/
theorem connect_two_hops_missing_space :
    renderCommandLine
        (Command.connect ⟨"KC1GSL", "KW1U", .twoHops "W1AW" "W2XYZ"⟩)
      = "CONNECT KC1GSL KW1Uvia W1AW W2XYZ\r" ∧
    renderCommandLine
        (Command.connect ⟨"KC1GSL", "KW1U", .twoHops "W1AW" "W2XYZ"⟩)
      ≠ "CONNECT KC1GSL KW1U via W1AW W2XYZ\r" := by
  constructor
  · rfl
  · decide

/-! ## src/main.rs: the B2F handshake banner -/

/-- The data-stream bytes written after the connection exchange:
`format` of the ident into `[..|-B2FWIHJM$]` followed by CR, `FF`, CR,
where the ident is binary name, hyphen, version. -/
def b2fBanner (ident : String) : String :=
  "[" ++ ident ++ "|-B2FWIHJM$]\rFF\r"

/-- C9: the emitted banner contains a stray `|` between the ident and
`-B2FWIHJM$`, so it is not the claimed `[<ident>-B2FWIHJM$]\rFF\r`
(shown here at the sample ident `plusendi-0.1.0`). -/
theorem banner_has_stray_bar :
    b2fBanner "plusendi-0.1.0" = "[plusendi-0.1.0|-B2FWIHJM$]\rFF\r" ∧
    b2fBanner "plusendi-0.1.0" ≠ "[plusendi-0.1.0-B2FWIHJM$]\rFF\r" := by
  constructor
  · rfl
  · decide

/-! ## src/lzhuf.rs: the adaptive-Huffman model

`LzHufState` restricted to the statistical model (`frequency_table`,
`parents`, `children`); the ring text buffer does not interact with the
frequency invariants.  Arrays are total functions `Nat → Nat`; only the
indices the source uses are meaningful.  Source constants: `N_CHAR =
314`, `T = 627`, `R = 626`, `MAX_FREQ = 0x8000 = 32768`; the sentinel
`frequency_table[T] = 0xffff = 65535`.  The source loops run on
in-bounds indices for every reachable state (proved below), so the
bounded fuels of the loop translations never run out there. -/

structure Huff : Type where
  frequency_table : Nat → Nat
  parents : Nat → Nat
  children : Nat → Nat

/-- Array store: the in-place `a[i] = v` of the source. -/
def fset (f : Nat → Nat) (i v : Nat) : Nat → Nat :=
  fun j => if j = i then v else f j

theorem fset_same (f : Nat → Nat) (i v : Nat) : fset f i v i = v := by
  simp [fset]

theorem fset_other (f : Nat → Nat) {i j : Nat} (v : Nat) (h : j ≠ i) :
    fset f i v j = f j := by
  simp [fset, h]

/-- The `while i + 1 < j` pair-summing loop of `LzHufState::new`. -/
def initFreqLoop : Nat → (Nat → Nat) → Nat → Nat → (Nat → Nat)
  | 0, f, _, _ => f
  | fuel + 1, f, i, j =>
    if i + 1 < j then
      initFreqLoop fuel (fset f j (f i + f (i + 1))) (i + 2) (j + 1)
    else f

/-- The `while i < T - 1` tree-wiring loop of `LzHufState::new`. -/
def initTreeLoop : Nat → ((Nat → Nat) × (Nat → Nat)) → Nat → Nat →
    ((Nat → Nat) × (Nat → Nat))
  | 0, cp, _, _ => cp
  | fuel + 1, cp, i, j =>
    if i < 626 then
      initTreeLoop fuel
        (fset cp.1 j i, fset (fset cp.2 i j) (i + 1) j) (i + 2) (j + 1)
    else cp

/-- `LzHufState::new`: leaves `0..314` with frequency 1 and markers
`i + 627`, pair-folded internal nodes, the sentinel, and the root's
parent slot 0. -/
def initialHuff : Huff :=
  let freq0 : Nat → Nat := fun i => if i < 314 then 1 else 0
  let chd0 : Nat → Nat := fun i => if i < 314 then i + 627 else 0
  let par0 : Nat → Nat := fun q => if 627 ≤ q ∧ q < 941 then q - 627 else 0
  let f1 := initFreqLoop 320 freq0 0 314
  let cp := initTreeLoop 320 (chd0, par0) 0 314
  { frequency_table := fset f1 627 65535
    parents := fset cp.2 626 0
    children := cp.1 }

/-- The inner rescan of `update`: the first `l` at or above `start` with
`¬ k > frequency_table l`. -/
def scanUp (f : Nat → Nat) (k : Nat) : Nat → Nat → Nat
  | l, 0 => l
  | l, fuel + 1 => if k > f l then scanUp f k (l + 1) fuel else l

/-- The node-exchange block of `update` (frequency swap, subtree pointer
exchange, parent rewrites), with the source's write order. -/
def swapStep (s : Huff) (c l k : Nat) : Huff :=
  let fq := fset (fset s.frequency_table c (s.frequency_table l)) l k
  let i := s.children c
  let par1 := fset s.parents i l
  let par2 := if i < 627 then fset par1 (i + 1) l else par1
  let j := s.children l
  let chd1 := fset s.children l i
  let par3 := fset par2 j c
  let par4 := if j < 627 then fset par3 (j + 1) c else par3
  let chd2 := fset chd1 c j
  ⟨fq, par4, chd2⟩

/-- The `loop` of `LzHufState::update`: increment, conditionally find
the swap target and exchange, then climb to the parent until it is 0. -/
def updateWalk : Huff → Nat → Nat → Huff
  | s, _, 0 => s
  | s, c, fuel + 1 =>
    let f1 := fset s.frequency_table c (s.frequency_table c + 1)
    let k := f1 c
    let s1 : Huff := ⟨f1, s.parents, s.children⟩
    let sc : Huff × Nat :=
      if k > f1 (c + 1) then
        let l := scanUp f1 k (c + 2) 700 - 1
        (swapStep s1 c l k, l)
      else (s1, c)
    let c3 := sc.1.parents sc.2
    if c3 = 0 then sc.1 else updateWalk sc.1 c3 fuel

/-- The leaf-compaction loop of `reconstruct` (collect `children[i] >=
T` entries to the low positions, halving their counts), returning the
state and the collected count. -/
def compactLoop : Huff → Nat → Nat → Nat → Huff × Nat
  | s, _, j, 0 => (s, j)
  | s, i, j, fuel + 1 =>
    if i < 627 then
      if 627 ≤ s.children i then
        compactLoop
          ⟨fset s.frequency_table j ((s.frequency_table i + 1) / 2),
            s.parents, fset s.children j (s.children i)⟩
          (i + 1) (j + 1) fuel
      else compactLoop s (i + 1) j fuel
    else (s, j)

/-- The downward insertion-point scan of `reconstruct`
(`while f < frequency_table[k] do k -= 1`). -/
def scanDown (f : Nat → Nat) (v : Nat) : Nat → Nat → Nat
  | k, 0 => k
  | k, fuel + 1 => if v < f k then scanDown f v (k - 1) fuel else k

/-- `copy_within(k..k+l, k+1)` on a functional array. -/
def shiftRight (f : Nat → Nat) (k l : Nat) : Nat → Nat :=
  fun q => if k + 1 ≤ q ∧ q ≤ k + l then f (q - 1) else f q

/-- The internal-node rebuilding loop of `reconstruct`: pair the nodes
at `i, i+1`, then insert the sum at the position keeping the weights
sorted, shifting with `copy_within` (whose length argument `(j - k) *
2` is the source's byte count). -/
def buildLoop : Huff → Nat → Nat → Nat → Huff
  | s, _, _, 0 => s
  | s, j, i, fuel + 1 =>
    if j < 627 then
      let f0 := fset s.frequency_table j
        (s.frequency_table i + s.frequency_table (i + 1))
      let f := f0 j
      let k := scanDown f0 f (j - 1) 700 + 1
      let l := (j - k) * 2
      let f1 := fset (shiftRight f0 k l) k f
      let c1 := fset (shiftRight s.children k l) k i
      buildLoop ⟨f1, s.parents, c1⟩ (j + 1) (i + 2) fuel
    else s

/-- The final `parents` rebuilding loop of `reconstruct`. -/
def rebuildLoop : Huff → Nat → Nat → Huff
  | s, _, 0 => s
  | s, i, fuel + 1 =>
    if i < 627 then
      let k := s.children i
      if 627 ≤ k then
        rebuildLoop ⟨s.frequency_table, fset s.parents k i, s.children⟩
          (i + 1) fuel
      else
        rebuildLoop
          ⟨s.frequency_table, fset (fset s.parents (k + 1) i) k i,
            s.children⟩ (i + 1) fuel
    else s

/-- `LzHufState::reconstruct`. -/
def reconstruct (s : Huff) : Huff :=
  rebuildLoop (buildLoop (compactLoop s 0 0 700).1 314 0 400) 0 700

/-- `LzHufState::update`: rebalance when the root count has reached
`MAX_FREQ`, then walk from the symbol's leaf slot. -/
def update (s : Huff) (c : Nat) : Huff :=
  let s := if s.frequency_table 626 = 32768 then reconstruct s else s
  updateWalk s (s.parents (c + 627)) 700

/-- States of the statistical model reachable by encoder or decoder
operations: both only mutate the model through `update` with a symbol
below `N_CHAR` (literals below 256 and length codes
`255 - THRESHOLD + match_length ≤ 313`). -/
inductive ReachableHuff : Huff → Prop where
  | init : ReachableHuff initialHuff
  | step {s : Huff} {c : Nat} :
      ReachableHuff s → c < 314 → ReachableHuff (update s c)

/-- The well-formedness invariant of the adaptive-Huffman model, between
updates.  `frequency_table` is non-decreasing up to the sentinel;
positions `0..626` are tree nodes (root at 626), a position is a leaf
when its `children` entry is a symbol marker `627 + a`, and internal
children occupy two adjacent positions strictly below their parent, with
consistent parent slots and exact frequency sums. -/
structure Inv (s : Huff) : Prop where
  sorted : ∀ i, i < 627 → s.frequency_table i ≤ s.frequency_table (i + 1)
  sentinel : s.frequency_table 627 = 65535
  pos : ∀ q, q ≤ 626 → 1 ≤ s.frequency_table q
  rootB : s.frequency_table 626 ≤ 32768
  chdRange : ∀ p, p ≤ 626 → s.children p < 941
  chdPos : ∀ p, p ≤ 626 → s.children p < 627 → s.children p + 1 < p
  pconfL : ∀ p, p ≤ 626 → s.children p < 627 →
    s.parents (s.children p) = p ∧ s.parents (s.children p + 1) = p
  pconfF : ∀ p, p ≤ 626 → 627 ≤ s.children p → s.parents (s.children p) = p
  par : ∀ q, q < 626 → q < s.parents q ∧ s.parents q ≤ 626 ∧
    (s.children (s.parents q) = q ∨ s.children (s.parents q) + 1 = q)
  parR : s.parents 626 = 0
  lpar : ∀ a, a < 314 → s.parents (627 + a) ≤ 626 ∧
    s.children (s.parents (627 + a)) = 627 + a
  sum : ∀ p, p ≤ 626 → s.children p < 627 →
    s.frequency_table p
      = s.frequency_table (s.children p)
        + s.frequency_table (s.children p + 1)

/-- The invariant at the top of each `update` walk iteration: as `Inv`,
but the root count is strictly below `MAX_FREQ` (the final increment
restores `≤ MAX_FREQ`), and the frequency sum at the current node `c` is
short by exactly the pending increment. -/
structure WInv (s : Huff) (c : Nat) : Prop where
  hc : c ≤ 626
  sorted : ∀ i, i < 627 → s.frequency_table i ≤ s.frequency_table (i + 1)
  sentinel : s.frequency_table 627 = 65535
  pos : ∀ q, q ≤ 626 → 1 ≤ s.frequency_table q
  rootB : s.frequency_table 626 ≤ 32767
  chdRange : ∀ p, p ≤ 626 → s.children p < 941
  chdPos : ∀ p, p ≤ 626 → s.children p < 627 → s.children p + 1 < p
  pconfL : ∀ p, p ≤ 626 → s.children p < 627 →
    s.parents (s.children p) = p ∧ s.parents (s.children p + 1) = p
  pconfF : ∀ p, p ≤ 626 → 627 ≤ s.children p → s.parents (s.children p) = p
  par : ∀ q, q < 626 → q < s.parents q ∧ s.parents q ≤ 626 ∧
    (s.children (s.parents q) = q ∨ s.children (s.parents q) + 1 = q)
  parR : s.parents 626 = 0
  lpar : ∀ a, a < 314 → s.parents (627 + a) ≤ 626 ∧
    s.children (s.parents (627 + a)) = 627 + a
  sumD : ∀ p, p ≤ 626 → p ≠ c → s.children p < 627 →
    s.frequency_table p
      = s.frequency_table (s.children p)
        + s.frequency_table (s.children p + 1)
  sumC : s.children c < 627 →
    s.frequency_table c + 1
      = s.frequency_table (s.children c)
        + s.frequency_table (s.children c + 1)

theorem mono_of_adj {f : Nat → Nat} {B : Nat}
    (hs : ∀ i, i + 1 < B → f i ≤ f (i + 1)) {a b : Nat} (hab : a ≤ b)
    (hb : b < B) : f a ≤ f b := by
  induction b with
  | zero => cases Nat.le_zero.mp hab; exact le_rfl
  | succ b ih =>
    rcases Nat.lt_or_ge a (b + 1) with h | h
    · exact le_trans (ih (by omega) (by omega)) (hs b hb)
    · cases Nat.le_antisymm hab h
      exact le_rfl

theorem sorted_mono {f : Nat → Nat}
    (hs : ∀ i, i < 627 → f i ≤ f (i + 1)) {a b : Nat} (hab : a ≤ b)
    (hb : b ≤ 627) : f a ≤ f b :=
  @mono_of_adj f 628 (fun i hi => hs i (by omega)) a b hab (by omega)

/-- The upward scan stops at the first position at or above `start`
whose frequency is at least `k`, provided one exists within fuel. -/
theorem scanUp_spec (f : Nat → Nat) (k start fuel : Nat) (bound : Nat)
    (hb : start ≤ bound) (hf : bound < start + fuel) (hstop : k ≤ f bound) :
    ∃ l, scanUp f k start fuel = l ∧ start ≤ l ∧ l ≤ bound ∧ k ≤ f l ∧
      ∀ m, start ≤ m → m < l → f m < k := by
  induction fuel generalizing start with
  | zero => omega
  | succ fuel ih =>
    rw [scanUp]
    by_cases hlt : k > f start
    · rw [if_pos hlt]
      have hsb : start ≠ bound := by
        intro e
        rw [e] at hlt
        omega
      obtain ⟨l, e, h1, h2, h3, h4⟩ :=
        ih (start + 1) (by omega) (by omega)
      exact ⟨l, e, by omega, h2, h3, fun m hm1 hm2 => by
        rcases Nat.eq_or_lt_of_le hm1 with rfl | h
        · omega
        · exact h4 m (by omega) hm2⟩
    · rw [if_neg hlt]
      exact ⟨start, rfl, le_rfl, hb, by omega, fun m hm1 hm2 => by omega⟩

/-- The downward scan stops at the first position at or below `start`
whose frequency is at most `v`, provided one exists within fuel. -/
theorem scanDown_spec (f : Nat → Nat) (v start fuel : Nat) (bound : Nat)
    (hb : bound ≤ start) (hf : start < bound + fuel) (hstop : f bound ≤ v) :
    ∃ l, scanDown f v start fuel = l ∧ bound ≤ l ∧ l ≤ start ∧ f l ≤ v ∧
      ∀ m, l < m → m ≤ start → v < f m := by
  induction fuel generalizing start with
  | zero => omega
  | succ fuel ih =>
    rw [scanDown]
    by_cases hlt : v < f start
    · rw [if_pos hlt]
      have hsb : start ≠ bound := by
        intro e
        rw [e] at hlt
        omega
      obtain ⟨l, e, h1, h2, h3, h4⟩ :=
        ih (start - 1) (by omega) (by omega)
      exact ⟨l, e, h1, by omega, h3, fun m hm1 hm2 => by
        rcases Nat.eq_or_lt_of_le hm2 with rfl | h
        · omega
        · exact h4 m hm1 (by omega)⟩
    · rw [if_neg hlt]
      exact ⟨start, rfl, hb, le_rfl, by omega, fun m hm1 hm2 => by omega⟩

/-- Closed form of the tree-wiring loop of `LzHufState::new`: at step
`t` the loop has `i = 2t`, `j = 314 + t`; it writes `children[314+t] =
2t` and `parents[2t] = parents[2t+1] = 314 + t` for `t < 313`. -/
theorem initTreeLoop_go (fuel : Nat) :
    ∀ t cp, t ≤ 313 → 313 - t < fuel →
    (∀ q, (initTreeLoop fuel cp (2 * t) (314 + t)).1 q =
      if 314 + t ≤ q ∧ q < 627 then 2 * (q - 314) else cp.1 q) ∧
    (∀ q, (initTreeLoop fuel cp (2 * t) (314 + t)).2 q =
      if 2 * t ≤ q ∧ q < 626 then 314 + q / 2 else cp.2 q) := by
  induction fuel with
  | zero => omega
  | succ fuel ih =>
    intro t cp ht hf
    rcases Nat.lt_or_ge t 313 with hlt | hge
    · rw [initTreeLoop, if_pos (by omega)]
      have e1 : 2 * t + 2 = 2 * (t + 1) := by omega
      have e2 : 314 + t + 1 = 314 + (t + 1) := by omega
      rw [e1, e2]
      obtain ⟨h1, h2⟩ := ih (t + 1)
        (fset cp.1 (314 + t) (2 * t),
          fset (fset cp.2 (2 * t) (314 + t)) (2 * t + 1) (314 + t))
        (by omega) (by omega)
      constructor
      · intro q
        rw [h1 q]
        dsimp only
        by_cases hq : 314 + (t + 1) ≤ q ∧ q < 627
        · rw [if_pos hq, if_pos (by omega)]
        · rw [if_neg hq]
          by_cases hq2 : 314 + t ≤ q ∧ q < 627
          · have : q = 314 + t := by omega
            rw [if_pos hq2, this, fset_same]
            omega
          · rw [if_neg hq2, fset_other]
            omega
      · intro q
        rw [h2 q]
        dsimp only
        by_cases hq : 2 * (t + 1) ≤ q ∧ q < 626
        · rw [if_pos hq, if_pos (by omega)]
        · rw [if_neg hq]
          by_cases hq2 : 2 * t ≤ q ∧ q < 626
          · rw [if_pos hq2]
            rcases (by omega : q = 2 * t ∨ q = 2 * t + 1) with rfl | rfl
            · rw [fset_other _ _ (by omega), fset_same]
              omega
            · rw [fset_same]
              omega
          · rw [if_neg hq2, fset_other _ _ (by omega), fset_other _ _ (by omega)]
    · have hteq : t = 313 := by omega
      subst hteq
      rw [initTreeLoop, if_neg (by omega)]
      exact ⟨fun q => by rw [if_neg (by omega)],
        fun q => by rw [if_neg (by omega)]⟩

/-- Properties established by the pair-summing frequency loop of
`LzHufState::new`, by induction with the running window
`[2t, 314+t)` of not-yet-paired nodes whose counts sum to 314. -/
theorem initFreqLoop_go (fuel : Nat) :
    ∀ t f, t ≤ 313 → 313 - t < fuel →
    (∀ q, q < 314 → f q = 1) →
    (∀ i, i + 1 < 314 + t → f i ≤ f (i + 1)) →
    (∀ j, 314 ≤ j → j < 314 + t →
      f j = f (2 * (j - 314)) + f (2 * (j - 314) + 1)) →
    (∀ q, q < 314 + t → 1 ≤ f q) →
    (∑ q ∈ Finset.Ico (2 * t) (314 + t), f q) = 314 →
    (∀ q, q < 314 → initFreqLoop fuel f (2 * t) (314 + t) q = 1) ∧
    (∀ i, i + 1 < 627 → initFreqLoop fuel f (2 * t) (314 + t) i ≤
      initFreqLoop fuel f (2 * t) (314 + t) (i + 1)) ∧
    (∀ j, 314 ≤ j → j < 627 →
      initFreqLoop fuel f (2 * t) (314 + t) j =
        initFreqLoop fuel f (2 * t) (314 + t) (2 * (j - 314)) +
        initFreqLoop fuel f (2 * t) (314 + t) (2 * (j - 314) + 1)) ∧
    (∀ q, q < 627 → 1 ≤ initFreqLoop fuel f (2 * t) (314 + t) q) ∧
    initFreqLoop fuel f (2 * t) (314 + t) 626 = 314 := by
  induction fuel with
  | zero => omega
  | succ fuel ih =>
    intro t f ht hf hlow hsort hsum hpos hfront
    rcases Nat.lt_or_ge t 313 with hlt | hge
    · rw [initFreqLoop, if_pos (by omega)]
      have e1 : 2 * t + 2 = 2 * (t + 1) := by omega
      have e2 : 314 + t + 1 = 314 + (t + 1) := by omega
      rw [e1, e2]
      have hmono : ∀ a b, a ≤ b → b < 314 + t → f a ≤ f b :=
        fun a b hab hb => @mono_of_adj f (314 + t) hsort a b hab hb
      refine ih (t + 1) (fset f (314 + t) (f (2 * t) + f (2 * t + 1)))
        (by omega) (by omega) ?_ ?_ ?_ ?_ ?_
      · intro q hq
        rw [fset_other _ _ (by omega)]
        exact hlow q hq
      · intro i hi
        rcases Nat.lt_or_ge (i + 1) (314 + t) with h | h
        · rw [fset_other _ _ (by omega), fset_other _ _ (by omega)]
          exact hsort i h
        · have hieq : i + 1 = 314 + t := by omega
          rw [fset_other _ _ (by omega), hieq, fset_same]
          rcases Nat.eq_zero_or_pos t with rfl | htpos
          · have h313 : i = 313 := by omega
            rw [h313, hlow 313 (by omega)]
            have h0 : 1 ≤ f (2 * 0) := hpos _ (by omega)
            omega
          · have hiv : i = 313 + t := by omega
            have hs : f (313 + t) =
                f (2 * (313 + t - 314)) + f (2 * (313 + t - 314) + 1) :=
              hsum (313 + t) (by omega) (by omega)
            have e3 : 2 * (313 + t - 314) = 2 * t - 2 := by omega
            have h1 : f (2 * t - 2) ≤ f (2 * t) :=
              hmono _ _ (by omega) (by omega)
            have h2 : f (2 * t - 2 + 1) ≤ f (2 * t + 1) :=
              hmono _ _ (by omega) (by omega)
            rw [hiv, hs, e3]
            omega
      · intro j hj1 hj2
        rcases Nat.lt_or_ge j (314 + t) with h | h
        · rw [fset_other _ _ (by omega), fset_other _ _ (by omega),
            fset_other _ _ (by omega)]
          exact hsum j hj1 h
        · have hjeq : j = 314 + t := by omega
          subst hjeq
          have e3 : 2 * (314 + t - 314) = 2 * t := by omega
          rw [fset_same, e3, fset_other _ _ (by omega),
            fset_other _ _ (by omega)]
      · intro q hq
        rcases Nat.lt_or_ge q (314 + t) with h | h
        · rw [fset_other _ _ (by omega)]
          exact hpos q h
        · have hqe : q = 314 + t := by omega
          subst hqe
          rw [fset_same]
          have h0 : 1 ≤ f (2 * t) := hpos _ (by omega)
          omega
      · have hsplit : ∑ q ∈ Finset.Ico (2 * t) (314 + t), f q =
            (∑ q ∈ Finset.Ico (2 * t) (2 * t + 2), f q) +
            ∑ q ∈ Finset.Ico (2 * t + 2) (314 + t), f q :=
          (Finset.sum_Ico_consecutive _ (by omega) (by omega)).symm
        have hpairv : ∑ q ∈ Finset.Ico (2 * t) (2 * t + 2), f q =
            f (2 * t) + f (2 * t + 1) := by
          rw [Finset.sum_Ico_succ_top (by omega),
            Finset.sum_Ico_succ_top (by omega), Finset.Ico_self,
            Finset.sum_empty]
          omega
        have hmid : ∑ q ∈ Finset.Ico (2 * (t + 1)) (314 + t),
            fset f (314 + t) (f (2 * t) + f (2 * t + 1)) q =
            ∑ q ∈ Finset.Ico (2 * (t + 1)) (314 + t), f q := by
          refine Finset.sum_congr rfl ?_
          intro q hq
          rw [Finset.mem_Ico] at hq
          exact fset_other _ _ (by omega)
        rw [← e2, Finset.sum_Ico_succ_top (by omega), hmid, fset_same, ← e1]
        have := hfront
        rw [hsplit, hpairv] at this
        omega
    · have hteq : t = 313 := by omega
      subst hteq
      rw [initFreqLoop, if_neg (by omega)]
      refine ⟨hlow, fun i hi => hsort i (by omega),
        fun j h1 h2 => hsum j h1 (by omega),
        fun q hq => hpos q (by omega), ?_⟩
      have : ∑ q ∈ Finset.Ico (2 * 313) (314 + 313), f q = f 626 := by
        rw [show (314 + 313 : Nat) = 626 + 1 by omega,
          show (2 * 313 : Nat) = 626 by omega,
          Finset.sum_Ico_succ_top (by omega), Finset.Ico_self,
          Finset.sum_empty]
        omega
      rw [this] at hfront
      exact hfront

set_option maxRecDepth 4000 in
/-- Closed form of `initialHuff.children`: leaves `0..313` carry their
symbol markers, internal nodes `314..626` point at consecutive pairs. -/
theorem initialHuff_children (q : Nat) :
    initialHuff.children q =
      if q < 314 then q + 627
      else if q < 627 then 2 * (q - 314) else 0 := by
  have h := (initTreeLoop_go 320 0
    ((fun i => if i < 314 then i + 627 else 0),
      (fun r => if 627 ≤ r ∧ r < 941 then r - 627 else 0))
    (by omega) (by omega)).1 q
  rw [show (2 * 0 : Nat) = 0 from rfl, show (314 + 0 : Nat) = 314 from rfl]
    at h
  have hdef : initialHuff.children q =
      (initTreeLoop 320
        ((fun i => if i < 314 then i + 627 else 0),
          (fun r => if 627 ≤ r ∧ r < 941 then r - 627 else 0)) 0 314).1 q :=
    rfl
  rw [hdef, h]
  dsimp only
  split_ifs <;> omega

set_option maxRecDepth 4000 in
/-- Closed form of `initialHuff.parents`: the root's slot is 0, tree
nodes below the root point at `314 + q/2`, and marker slots `627 + a`
point back at the leaf `a`. -/
theorem initialHuff_parents (q : Nat) :
    initialHuff.parents q =
      if q = 626 then 0
      else if q < 626 then 314 + q / 2
      else if 627 ≤ q ∧ q < 941 then q - 627 else 0 := by
  have h := (initTreeLoop_go 320 0
    ((fun i => if i < 314 then i + 627 else 0),
      (fun r => if 627 ≤ r ∧ r < 941 then r - 627 else 0))
    (by omega) (by omega)).2 q
  rw [show (2 * 0 : Nat) = 0 from rfl, show (314 + 0 : Nat) = 314 from rfl]
    at h
  have hdef : initialHuff.parents q =
      fset (initTreeLoop 320
        ((fun i => if i < 314 then i + 627 else 0),
          (fun r => if 627 ≤ r ∧ r < 941 then r - 627 else 0)) 0 314).2
        626 0 q :=
    rfl
  rw [hdef]
  by_cases hq : q = 626
  · subst hq
    rw [fset_same, if_pos rfl]
  · rw [fset_other _ _ hq, h]
    dsimp only
    rw [if_neg hq]
    split_ifs <;> omega

set_option maxRecDepth 4000 in
/-- The properties of `initialHuff.frequency_table` needed for the
invariant: leaves start at 1, the table is sorted, internal nodes carry
exact pair sums, counts are positive, the root is 314, and the sentinel
is `0xffff`. -/
theorem initialHuff_freq :
    (∀ q, q < 314 → initialHuff.frequency_table q = 1) ∧
    (∀ i, i + 1 < 627 → initialHuff.frequency_table i ≤
      initialHuff.frequency_table (i + 1)) ∧
    (∀ j, 314 ≤ j → j < 627 → initialHuff.frequency_table j =
      initialHuff.frequency_table (2 * (j - 314)) +
      initialHuff.frequency_table (2 * (j - 314) + 1)) ∧
    (∀ q, q < 627 → 1 ≤ initialHuff.frequency_table q) ∧
    initialHuff.frequency_table 626 = 314 ∧
    initialHuff.frequency_table 627 = 65535 := by
  have h := initFreqLoop_go 320 0 (fun i => if i < 314 then 1 else 0)
    (by omega) (by omega)
    (fun q hq => if_pos hq)
    (fun i hi => by
      dsimp only
      rw [if_pos (by omega), if_pos (by omega)])
    (fun j h1 h2 => by omega)
    (fun q hq => by
      dsimp only
      rw [if_pos (by omega)])
    (by
      have hall : ∀ q ∈ Finset.Ico 0 314,
          (fun i => if i < 314 then (1 : Nat) else 0) q = 1 := by
        intro q hq
        rw [Finset.mem_Ico] at hq
        exact if_pos hq.2
      rw [Finset.sum_congr rfl hall, Finset.sum_const, Nat.card_Ico,
        smul_eq_mul])
  rw [show (2 * 0 : Nat) = 0 from rfl, show (314 + 0 : Nat) = 314 from rfl]
    at h
  obtain ⟨hlow, hsort, hsum, hpos, hroot⟩ := h
  have hdef : ∀ q, initialHuff.frequency_table q =
      fset (initFreqLoop 320 (fun i => if i < 314 then 1 else 0) 0 314)
        627 65535 q :=
    fun q => rfl
  refine ⟨?_, ?_, ?_, ?_, ?_, ?_⟩
  · intro q hq
    rw [hdef q, fset_other _ _ (by omega)]
    exact hlow q hq
  · intro i hi
    rw [hdef i, hdef (i + 1), fset_other _ _ (by omega),
      fset_other _ _ (by omega)]
    exact hsort i hi
  · intro j h1 h2
    rw [hdef j, hdef (2 * (j - 314)), hdef (2 * (j - 314) + 1),
      fset_other _ _ (by omega), fset_other _ _ (by omega),
      fset_other _ _ (by omega)]
    exact hsum j h1 h2
  · intro q hq
    rw [hdef q, fset_other _ _ (by omega)]
    exact hpos q hq
  · rw [hdef 626, fset_other _ _ (by omega)]
    exact hroot
  · rw [hdef 627, fset_same]

/-- The initial model state satisfies the tree invariant. -/
theorem initialHuff_inv : Inv initialHuff := by
  obtain ⟨hlow, hsort, hsum, hpos, hroot, hsent⟩ := initialHuff_freq
  have hch : ∀ p, p ≤ 626 → 314 ≤ p → initialHuff.children p =
      2 * (p - 314) := by
    intro p h1 h2
    rw [initialHuff_children, if_neg (by omega), if_pos (by omega)]
  have hchL : ∀ p, p < 314 → initialHuff.children p = p + 627 := by
    intro p h1
    rw [initialHuff_children, if_pos h1]
  have hpar : ∀ q, q < 626 → initialHuff.parents q = 314 + q / 2 := by
    intro q h1
    rw [initialHuff_parents, if_neg (by omega), if_pos h1]
  have hparM : ∀ q, 627 ≤ q → q < 941 → initialHuff.parents q = q - 627 := by
    intro q h1 h2
    rw [initialHuff_parents, if_neg (by omega), if_neg (by omega),
      if_pos ⟨h1, h2⟩]
  refine ⟨?_, hsent, fun q hq => hpos q (by omega), by omega, ?_, ?_, ?_,
    ?_, ?_, ?_, ?_, ?_⟩
  · intro i hi
    rcases Nat.lt_or_ge (i + 1) 627 with h | h
    · exact hsort i h
    · have hieq : i = 626 := by omega
      subst hieq
      rw [hsent, hroot]
      omega
  · intro p hp
    rcases Nat.lt_or_ge p 314 with h | h
    · rw [hchL p h]
      omega
    · rw [hch p hp h]
      omega
  · intro p hp hin
    rcases Nat.lt_or_ge p 314 with h | h
    · rw [hchL p h] at hin
      omega
    · rw [hch p hp h] at hin ⊢
      omega
  · intro p hp hin
    rcases Nat.lt_or_ge p 314 with h | h
    · rw [hchL p h] at hin
      omega
    · rw [hch p hp h] at hin ⊢
      refine ⟨?_, ?_⟩
      · rw [hpar _ (by omega)]
        omega
      · rw [hpar _ (by omega)]
        omega
  · intro p hp hin
    rcases Nat.lt_or_ge p 314 with h | h
    · rw [hchL p h] at hin ⊢
      rw [hparM _ (by omega) (by omega)]
      omega
    · rw [hch p hp h] at hin
      omega
  · intro q hq
    rw [hpar q hq]
    have hc : initialHuff.children (314 + q / 2) = 2 * (q / 2) := by
      rw [hch _ (by omega) (by omega)]
      omega
    refine ⟨by omega, by omega, ?_⟩
    rw [hc]
    omega
  · rw [initialHuff_parents, if_pos rfl]
  · intro a ha
    rw [hparM _ (by omega) (by omega)]
    refine ⟨by omega, ?_⟩
    rw [show 627 + a - 627 = a by omega, hchL a ha]
    omega
  · intro p hp hin
    rcases Nat.lt_or_ge p 314 with h | h
    · rw [hchL p h] at hin
      omega
    · rw [hch p hp h] at hin ⊢
      exact hsum p h (by omega)

/-- A position is in the child block of at most one parent: the parent
slots written by the tree force it. -/
theorem block_unique {par chd : Nat → Nat}
    (pc : ∀ p, p ≤ 626 → chd p < 627 → par (chd p) = p ∧ par (chd p + 1) = p)
    {p x : Nat} (hp : p ≤ 626) (hcp : chd p < 627)
    (hx : chd p = x ∨ chd p + 1 = x) : par x = p := by
  rcases hx with rfl | rfl
  · exact (pc p hp hcp).1
  · exact (pc p hp hcp).2

theorem swapStep_freq (s : Huff) (c l k : Nat) (hcl : c ≠ l) (m : Nat) :
    (swapStep s c l k).frequency_table m =
      if m = l then k
      else if m = c then s.frequency_table l
      else s.frequency_table m := by
  show fset (fset s.frequency_table c (s.frequency_table l)) l k m = _
  by_cases hml : m = l
  · subst hml
    rw [fset_same, if_pos rfl]
  · rw [fset_other _ _ hml, if_neg hml]
    by_cases hmc : m = c
    · subst hmc
      rw [fset_same, if_pos rfl]
    · rw [fset_other _ _ hmc, if_neg hmc]

theorem swapStep_children (s : Huff) (c l k : Nat) (hcl : c ≠ l) (q : Nat) :
    (swapStep s c l k).children q =
      if q = c then s.children l
      else if q = l then s.children c
      else s.children q := by
  show fset (fset s.children l (s.children c)) c (s.children l) q = _
  by_cases hqc : q = c
  · subst hqc
    rw [fset_same, if_pos rfl]
  · rw [fset_other _ _ hqc, if_neg hqc]
    by_cases hql : q = l
    · subst hql
      rw [fset_same, if_pos rfl]
    · rw [fset_other _ _ hql, if_neg hql]

theorem swapStep_parents (s : Huff) (c l k : Nat)
    (hd1 : s.children c ≠ s.children l)
    (hd2 : ¬(s.children c < 627 ∧ s.children c + 1 = s.children l))
    (hd3 : ¬(s.children l < 627 ∧ s.children l + 1 = s.children c))
    (q : Nat) :
    (swapStep s c l k).parents q =
      if q = s.children l ∨ (s.children l < 627 ∧ q = s.children l + 1)
        then c
      else if q = s.children c ∨ (s.children c < 627 ∧ q = s.children c + 1)
        then l
      else s.parents q := by
  have hshow : (swapStep s c l k).parents =
      (if s.children l < 627 then
        fset (fset (if s.children c < 627 then
            fset (fset s.parents (s.children c) l) (s.children c + 1) l
          else fset s.parents (s.children c) l) (s.children l) c)
          (s.children l + 1) c
      else
        fset (if s.children c < 627 then
            fset (fset s.parents (s.children c) l) (s.children c + 1) l
          else fset s.parents (s.children c) l) (s.children l) c) := rfl
  rw [hshow]
  simp only [apply_ite (fun g : Nat → Nat => g q), fset]
  split_ifs <;> omega

/-- The root is never a member of a child block: its parent slot is 0
and position 0 cannot be internal. -/
theorem root_not_in_block {par chd : Nat → Nat}
    (pc : ∀ p, p ≤ 626 → chd p < 627 → par (chd p) = p ∧ par (chd p + 1) = p)
    (pr : par 626 = 0)
    (cp : ∀ p, p ≤ 626 → chd p < 627 → chd p + 1 < p)
    {p : Nat} (hp : p ≤ 626) (hcp : chd p < 627) :
    chd p ≠ 626 ∧ chd p + 1 ≠ 626 := by
  have hcpos := cp p hp hcp
  constructor
  · intro e
    have h1 := (pc p hp hcp).1
    rw [e, pr] at h1
    omega
  · intro e
    have h1 := (pc p hp hcp).2
    rw [e, pr] at h1
    omega

/-- One walk iteration without a node exchange: incrementing the
current node restores its sum and moves the deficit to its parent; at
the root the walk ends with the full invariant. -/
theorem noswap_winv (s : Huff) (c : Nat) (w : WInv s c)
    (hns : s.frequency_table c + 1 ≤ s.frequency_table (c + 1)) :
    (c = 626 → Inv ⟨fset s.frequency_table c (s.frequency_table c + 1),
      s.parents, s.children⟩) ∧
    (c < 626 → c < s.parents c ∧
      WInv ⟨fset s.frequency_table c (s.frequency_table c + 1),
        s.parents, s.children⟩ (s.parents c)) := by
  set f' := fset s.frequency_table c (s.frequency_table c + 1) with hfd
  have hf : ∀ m, f' m =
      if m = c then s.frequency_table c + 1 else s.frequency_table m := by
    intro m
    by_cases hmc : m = c
    · subst hmc
      rw [hfd, fset_same, if_pos rfl]
    · rw [hfd, fset_other _ _ hmc, if_neg hmc]
  have hsorted : ∀ i, i < 627 → f' i ≤ f' (i + 1) := by
    intro i hi
    rw [hf i, hf (i + 1)]
    by_cases h1 : i = c
    · subst h1
      rw [if_pos rfl, if_neg (by omega)]
      exact hns
    · rw [if_neg h1]
      by_cases h2 : i + 1 = c
      · rw [if_pos h2]
        have := w.sorted i hi
        rw [h2] at this
        omega
      · rw [if_neg h2]
        exact w.sorted i hi
  have hpos : ∀ q, q ≤ 626 → 1 ≤ f' q := by
    intro q hq
    rw [hf q]
    have := w.pos q hq
    split_ifs <;> omega
  constructor
  · intro hc626
    subst hc626
    refine ⟨hsorted, ?_, hpos, ?_, w.chdRange, w.chdPos, w.pconfL, w.pconfF,
      w.par, w.parR, w.lpar, ?_⟩
    · show f' 627 = 65535
      rw [hf 627, if_neg (by omega)]
      exact w.sentinel
    · show f' 626 ≤ 32768
      rw [hf 626, if_pos rfl]
      have := w.rootB
      omega
    · intro p hp hcp
      show f' p = f' (s.children p) + f' (s.children p + 1)
      obtain ⟨hn1, hn2⟩ :=
        root_not_in_block w.pconfL w.parR w.chdPos hp hcp
      rw [hf p, hf (s.children p), hf (s.children p + 1),
        if_neg hn1, if_neg hn2]
      by_cases hpc : p = 626
      · subst hpc
        rw [if_pos rfl]
        have := w.sumC hcp
        omega
      · rw [if_neg hpc]
        exact w.sumD p hp hpc hcp
  · intro hc626
    obtain ⟨hpar1, hpar2, hpar3⟩ := w.par c hc626
    refine ⟨hpar1, hpar2, hsorted, ?_, hpos, ?_, w.chdRange, w.chdPos,
      w.pconfL, w.pconfF, w.par, w.parR, w.lpar, ?_, ?_⟩
    · show f' 627 = 65535
      rw [hf 627, if_neg (by omega)]
      exact w.sentinel
    · show f' 626 ≤ 32767
      rw [hf 626, if_neg (by omega)]
      exact w.rootB
    · intro p hp hpP hcp
      show f' p = f' (s.children p) + f' (s.children p + 1)
      by_cases hpc : p = c
      · subst hpc
        have hlo := w.chdPos p hp hcp
        rw [hf p, hf (s.children p), hf (s.children p + 1), if_pos rfl,
          if_neg (by omega), if_neg (by omega)]
        exact w.sumC hcp
      · have hb1 : s.children p ≠ c := by
          intro e
          exact hpP (block_unique w.pconfL hp hcp (Or.inl e)).symm
        have hb2 : s.children p + 1 ≠ c := by
          intro e
          exact hpP (block_unique w.pconfL hp hcp (Or.inr e)).symm
        rw [hf p, hf (s.children p), hf (s.children p + 1), if_neg hpc,
          if_neg hb1, if_neg hb2]
        exact w.sumD p hp hpc hcp
    · intro hcp
      show f' (s.parents c) + 1 =
        f' (s.children (s.parents c)) + f' (s.children (s.parents c) + 1)
      have hPsum := w.sumD (s.parents c) hpar2 (by omega) hcp
      rcases hpar3 with he | he
      · rw [he] at hPsum ⊢
        rw [hf (s.parents c), hf c, hf (c + 1), if_neg (by omega),
          if_pos rfl, if_neg (by omega)]
        omega
      · rw [he] at hPsum ⊢
        rw [hf (s.parents c), hf (s.children (s.parents c)), hf c,
          if_neg (by omega), if_neg (by omega), if_pos rfl]
        omega

/-- One walk iteration with a node exchange: when the increment would
break the ordering, the source swaps the current node with the last
node `l` of the run of equal counts; the increment lands at `l`, both
swapped nodes keep exact sums, and the deficit moves to `l`'s parent. -/
theorem swap_winv (s : Huff) (c l : Nat) (w : WInv s c)
    (hl1 : c + 1 ≤ l) (hl2 : l ≤ 626)
    (hrun : ∀ m, c ≤ m → m ≤ l →
      s.frequency_table m = s.frequency_table c)
    (hup : s.frequency_table c + 1 ≤ s.frequency_table (l + 1)) :
    (swapStep ⟨fset s.frequency_table c (s.frequency_table c + 1),
      s.parents, s.children⟩ c l (s.frequency_table c + 1)).parents l
      = s.parents l ∧
    (l = 626 → Inv (swapStep ⟨fset s.frequency_table c
      (s.frequency_table c + 1), s.parents, s.children⟩ c l
      (s.frequency_table c + 1))) ∧
    (l < 626 → l < s.parents l ∧
      WInv (swapStep ⟨fset s.frequency_table c
        (s.frequency_table c + 1), s.parents, s.children⟩ c l
        (s.frequency_table c + 1)) (s.parents l)) := by
  have hlc : c < l := by omega
  have hflc : s.frequency_table l = s.frequency_table c :=
    hrun l (by omega) le_rfl
  have hiR : s.children c < 941 := w.chdRange c (by omega)
  have hjR : s.children l < 941 := w.chdRange l hl2
  have hilow : 627 ≤ s.children c ∨ s.children c + 1 < c := by
    rcases Nat.lt_or_ge (s.children c) 627 with h | h
    · exact Or.inr (w.chdPos c (by omega) h)
    · exact Or.inl h
  have hjC : 627 ≤ s.children l ∨ s.children l + 1 < l := by
    rcases Nat.lt_or_ge (s.children l) 627 with h | h
    · exact Or.inr (w.chdPos l hl2 h)
    · exact Or.inl h
  have hparI : s.parents (s.children c) = c := by
    rcases Nat.lt_or_ge (s.children c) 627 with h | h
    · exact (w.pconfL c (by omega) h).1
    · exact w.pconfF c (by omega) h
  have hparI1 : s.children c < 627 → s.parents (s.children c + 1) = c :=
    fun h => (w.pconfL c (by omega) h).2
  have hparJ : s.parents (s.children l) = l := by
    rcases Nat.lt_or_ge (s.children l) 627 with h | h
    · exact (w.pconfL l hl2 h).1
    · exact w.pconfF l hl2 h
  have hparJ1 : s.children l < 627 → s.parents (s.children l + 1) = l :=
    fun h => (w.pconfL l hl2 h).2
  have hd1 : s.children c ≠ s.children l := by
    intro e
    rw [e] at hparI
    rw [hparI] at hparJ
    omega
  have hd2 : ¬(s.children c < 627 ∧ s.children c + 1 = s.children l) := by
    rintro ⟨h1, h2⟩
    have := hparI1 h1
    rw [h2] at this
    rw [this] at hparJ
    omega
  have hd3 : ¬(s.children l < 627 ∧ s.children l + 1 = s.children c) := by
    rintro ⟨h1, h2⟩
    have := hparJ1 h1
    rw [h2] at this
    rw [this] at hparI
    omega
  have hjlow : 627 ≤ s.children l ∨ s.children l + 1 < c := by
    rcases Nat.lt_or_ge (s.children l) 627 with hj627 | hj627
    · refine Or.inr ?_
      have hjC2 := w.chdPos l hl2 hj627
      have hsumL := w.sumD l hl2 (by omega) hj627
      have hposj : 1 ≤ s.frequency_table (s.children l) :=
        w.pos _ (by omega)
      have hposj1 : 1 ≤ s.frequency_table (s.children l + 1) :=
        w.pos _ (by omega)
      by_contra hcon
      rcases Nat.lt_or_ge (s.children l) c with hjc | hjc
      · have he : s.children l + 1 = c := by omega
        rw [he] at hsumL
        omega
      · have hfj : s.frequency_table (s.children l) = s.frequency_table c :=
          hrun _ hjc (by omega)
        omega
    · exact Or.inl hj627
  have hfq : ∀ m, (swapStep ⟨fset s.frequency_table c
      (s.frequency_table c + 1), s.parents, s.children⟩ c l
      (s.frequency_table c + 1)).frequency_table m =
      if m = l then s.frequency_table l + 1 else s.frequency_table m := by
    intro m
    have h := swapStep_freq ⟨fset s.frequency_table c
      (s.frequency_table c + 1), s.parents, s.children⟩ c l
      (s.frequency_table c + 1) (by omega) m
    rw [h]
    by_cases hml : m = l
    · rw [if_pos hml, if_pos hml]
      omega
    · rw [if_neg hml, if_neg hml]
      by_cases hmc : m = c
      · subst hmc
        rw [if_pos rfl]
        show fset s.frequency_table m (s.frequency_table m + 1) l = _
        rw [fset_other _ _ (by omega), hflc]
      · rw [if_neg hmc]
        show fset s.frequency_table c (s.frequency_table c + 1) m = _
        rw [fset_other _ _ hmc]
  have hchd : ∀ q, (swapStep ⟨fset s.frequency_table c
      (s.frequency_table c + 1), s.parents, s.children⟩ c l
      (s.frequency_table c + 1)).children q =
      if q = c then s.children l else if q = l then s.children c
      else s.children q :=
    fun q => swapStep_children ⟨fset s.frequency_table c
      (s.frequency_table c + 1), s.parents, s.children⟩ c l
      (s.frequency_table c + 1) (by omega) q
  have hpar : ∀ q, (swapStep ⟨fset s.frequency_table c
      (s.frequency_table c + 1), s.parents, s.children⟩ c l
      (s.frequency_table c + 1)).parents q =
      if q = s.children l ∨ (s.children l < 627 ∧ q = s.children l + 1)
        then c
      else if q = s.children c ∨ (s.children c < 627 ∧ q = s.children c + 1)
        then l
      else s.parents q :=
    fun q => swapStep_parents ⟨fset s.frequency_table c
      (s.frequency_table c + 1), s.parents, s.children⟩ c l
      (s.frequency_table c + 1) hd1 hd2 hd3 q
  have hparl : (swapStep ⟨fset s.frequency_table c
      (s.frequency_table c + 1), s.parents, s.children⟩ c l
      (s.frequency_table c + 1)).parents l = s.parents l := by
    have hcond1 : ¬(l = s.children l ∨
        (s.children l < 627 ∧ l = s.children l + 1)) := by
      rintro (h | ⟨h1', h2'⟩) <;> omega
    have hcond2 : ¬(l = s.children c ∨
        (s.children c < 627 ∧ l = s.children c + 1)) := by
      rintro (h | ⟨h1', h2'⟩) <;> omega
    rw [hpar l, if_neg hcond1, if_neg hcond2]
  have hsorted2 : ∀ idx, idx < 627 →
      (swapStep ⟨fset s.frequency_table c (s.frequency_table c + 1),
        s.parents, s.children⟩ c l
        (s.frequency_table c + 1)).frequency_table idx ≤
      (swapStep ⟨fset s.frequency_table c (s.frequency_table c + 1),
        s.parents, s.children⟩ c l
        (s.frequency_table c + 1)).frequency_table (idx + 1) := by
    intro idx h
    rw [hfq idx, hfq (idx + 1)]
    by_cases h1 : idx = l
    · rw [if_pos h1, if_neg (by omega)]
      subst h1
      omega
    · rw [if_neg h1]
      by_cases h2 : idx + 1 = l
      · rw [if_pos h2]
        have := w.sorted idx h
        rw [h2] at this
        omega
      · rw [if_neg h2]
        exact w.sorted idx h
  have hsent2 : (swapStep ⟨fset s.frequency_table c
      (s.frequency_table c + 1), s.parents, s.children⟩ c l
      (s.frequency_table c + 1)).frequency_table 627 = 65535 := by
    rw [hfq 627, if_neg (by omega)]
    exact w.sentinel
  have hpos2 : ∀ q, q ≤ 626 → 1 ≤ (swapStep ⟨fset s.frequency_table c
      (s.frequency_table c + 1), s.parents, s.children⟩ c l
      (s.frequency_table c + 1)).frequency_table q := by
    intro q hq
    rw [hfq q]
    have := w.pos q hq
    split_ifs <;> omega
  have hchdRange2 : ∀ p, p ≤ 626 → (swapStep ⟨fset s.frequency_table c
      (s.frequency_table c + 1), s.parents, s.children⟩ c l
      (s.frequency_table c + 1)).children p < 941 := by
    intro p hp
    rw [hchd p]
    split_ifs
    · exact hjR
    · exact hiR
    · exact w.chdRange p hp
  have hchdPos2 : ∀ p, p ≤ 626 → (swapStep ⟨fset s.frequency_table c
      (s.frequency_table c + 1), s.parents, s.children⟩ c l
      (s.frequency_table c + 1)).children p < 627 →
      (swapStep ⟨fset s.frequency_table c (s.frequency_table c + 1),
        s.parents, s.children⟩ c l
        (s.frequency_table c + 1)).children p + 1 < p := by
    intro p hp
    rw [hchd p]
    by_cases hpc : p = c
    · rw [if_pos hpc]
      intro h627
      omega
    · rw [if_neg hpc]
      by_cases hpl : p = l
      · rw [if_pos hpl]
        intro h627
        omega
      · rw [if_neg hpl]
        exact w.chdPos p hp
  have hpconfL2 : ∀ p, p ≤ 626 → (swapStep ⟨fset s.frequency_table c
      (s.frequency_table c + 1), s.parents, s.children⟩ c l
      (s.frequency_table c + 1)).children p < 627 →
      (swapStep ⟨fset s.frequency_table c (s.frequency_table c + 1),
        s.parents, s.children⟩ c l (s.frequency_table c + 1)).parents
        ((swapStep ⟨fset s.frequency_table c (s.frequency_table c + 1),
          s.parents, s.children⟩ c l
          (s.frequency_table c + 1)).children p) = p ∧
      (swapStep ⟨fset s.frequency_table c (s.frequency_table c + 1),
        s.parents, s.children⟩ c l (s.frequency_table c + 1)).parents
        ((swapStep ⟨fset s.frequency_table c (s.frequency_table c + 1),
          s.parents, s.children⟩ c l
          (s.frequency_table c + 1)).children p + 1) = p := by
    intro p hp
    rw [hchd p]
    by_cases hpc : p = c
    · rw [if_pos hpc]
      intro hj627
      subst hpc
      constructor
      · rw [hpar (s.children l), if_pos (Or.inl rfl)]
      · rw [hpar (s.children l + 1), if_pos (Or.inr ⟨hj627, rfl⟩)]
    · rw [if_neg hpc]
      by_cases hpl : p = l
      · rw [if_pos hpl]
        intro hi627
        subst hpl
        have hcond : ¬(s.children c = s.children p ∨
            (s.children p < 627 ∧ s.children c = s.children p + 1)) := by
          rintro (h | ⟨h1', h2'⟩)
          · exact hd1 h
          · exact hd3 ⟨h1', h2'.symm⟩
        have hcond2 : ¬(s.children c + 1 = s.children p ∨
            (s.children p < 627 ∧ s.children c + 1 = s.children p + 1)) := by
          rintro (h | ⟨h1', h2'⟩)
          · exact hd2 ⟨hi627, h⟩
          · exact hd1 (by omega)
        constructor
        · rw [hpar (s.children c), if_neg hcond, if_pos (Or.inl rfl)]
        · rw [hpar (s.children c + 1), if_neg hcond2,
            if_pos (Or.inr ⟨hi627, rfl⟩)]
      · rw [if_neg hpl]
        intro hcp
        obtain ⟨hb1, hb2⟩ := w.pconfL p hp hcp
        have hc1 : ¬(s.children p = s.children l ∨
            (s.children l < 627 ∧ s.children p = s.children l + 1)) := by
          rintro (h | ⟨h1', h2'⟩)
          · rw [h, hparJ] at hb1
            exact hpl hb1.symm
          · rw [h2', hparJ1 h1'] at hb1
            exact hpl hb1.symm
        have hc2 : ¬(s.children p = s.children c ∨
            (s.children c < 627 ∧ s.children p = s.children c + 1)) := by
          rintro (h | ⟨h1', h2'⟩)
          · rw [h, hparI] at hb1
            exact hpc hb1.symm
          · rw [h2', hparI1 h1'] at hb1
            exact hpc hb1.symm
        have hc3 : ¬(s.children p + 1 = s.children l ∨
            (s.children l < 627 ∧ s.children p + 1 = s.children l + 1)) := by
          rintro (h | ⟨h1', h2'⟩)
          · rw [h, hparJ] at hb2
            exact hpl hb2.symm
          · have e : s.children p = s.children l := by omega
            rw [e, hparJ] at hb1
            exact hpl hb1.symm
        have hc4 : ¬(s.children p + 1 = s.children c ∨
            (s.children c < 627 ∧ s.children p + 1 = s.children c + 1)) := by
          rintro (h | ⟨h1', h2'⟩)
          · rw [h, hparI] at hb2
            exact hpc hb2.symm
          · have e : s.children p = s.children c := by omega
            rw [e, hparI] at hb1
            exact hpc hb1.symm
        constructor
        · rw [hpar (s.children p), if_neg hc1, if_neg hc2]
          exact hb1
        · rw [hpar (s.children p + 1), if_neg hc3, if_neg hc4]
          exact hb2
  have hpconfF2 : ∀ p, p ≤ 626 → 627 ≤ (swapStep ⟨fset s.frequency_table c
      (s.frequency_table c + 1), s.parents, s.children⟩ c l
      (s.frequency_table c + 1)).children p →
      (swapStep ⟨fset s.frequency_table c (s.frequency_table c + 1),
        s.parents, s.children⟩ c l (s.frequency_table c + 1)).parents
        ((swapStep ⟨fset s.frequency_table c (s.frequency_table c + 1),
          s.parents, s.children⟩ c l
          (s.frequency_table c + 1)).children p) = p := by
    intro p hp
    rw [hchd p]
    by_cases hpc : p = c
    · rw [if_pos hpc]
      intro hj627
      subst hpc
      rw [hpar (s.children l), if_pos (Or.inl rfl)]
    · rw [if_neg hpc]
      by_cases hpl : p = l
      · rw [if_pos hpl]
        intro hi627
        subst hpl
        have hcond : ¬(s.children c = s.children p ∨
            (s.children p < 627 ∧ s.children c = s.children p + 1)) := by
          rintro (h | ⟨h1', h2'⟩)
          · exact hd1 h
          · exact hd3 ⟨h1', h2'.symm⟩
        rw [hpar (s.children c), if_neg hcond, if_pos (Or.inl rfl)]
      · rw [if_neg hpl]
        intro hcp
        have hb1 := w.pconfF p hp hcp
        have hc1 : ¬(s.children p = s.children l ∨
            (s.children l < 627 ∧ s.children p = s.children l + 1)) := by
          rintro (h | ⟨h1', h2'⟩)
          · rw [h, hparJ] at hb1
            exact hpl hb1.symm
          · rw [h2', hparJ1 h1'] at hb1
            exact hpl hb1.symm
        have hc2 : ¬(s.children p = s.children c ∨
            (s.children c < 627 ∧ s.children p = s.children c + 1)) := by
          rintro (h | ⟨h1', h2'⟩)
          · rw [h, hparI] at hb1
            exact hpc hb1.symm
          · rw [h2', hparI1 h1'] at hb1
            exact hpc hb1.symm
        rw [hpar (s.children p), if_neg hc1, if_neg hc2]
        exact hb1
  have hpar2 : ∀ q, q < 626 →
      q < (swapStep ⟨fset s.frequency_table c (s.frequency_table c + 1),
        s.parents, s.children⟩ c l
        (s.frequency_table c + 1)).parents q ∧
      (swapStep ⟨fset s.frequency_table c (s.frequency_table c + 1),
        s.parents, s.children⟩ c l
        (s.frequency_table c + 1)).parents q ≤ 626 ∧
      ((swapStep ⟨fset s.frequency_table c (s.frequency_table c + 1),
        s.parents, s.children⟩ c l (s.frequency_table c + 1)).children
        ((swapStep ⟨fset s.frequency_table c (s.frequency_table c + 1),
          s.parents, s.children⟩ c l
          (s.frequency_table c + 1)).parents q) = q ∨
      (swapStep ⟨fset s.frequency_table c (s.frequency_table c + 1),
        s.parents, s.children⟩ c l (s.frequency_table c + 1)).children
        ((swapStep ⟨fset s.frequency_table c (s.frequency_table c + 1),
          s.parents, s.children⟩ c l
          (s.frequency_table c + 1)).parents q) + 1 = q) := by
    intro q hq
    by_cases h1 : q = s.children l ∨
        (s.children l < 627 ∧ q = s.children l + 1)
    · rw [hpar q, if_pos h1]
      refine ⟨by omega, by omega, ?_⟩
      rw [hchd c, if_pos rfl]
      rcases h1 with h | ⟨h1', h2'⟩
      · exact Or.inl h.symm
      · exact Or.inr (by omega)
    · by_cases h2 : q = s.children c ∨
          (s.children c < 627 ∧ q = s.children c + 1)
      · rw [hpar q, if_neg h1, if_pos h2]
        refine ⟨by omega, hl2, ?_⟩
        rw [hchd l, if_neg (by omega), if_pos rfl]
        rcases h2 with h | ⟨h1', h2'⟩
        · exact Or.inl h.symm
        · exact Or.inr (by omega)
      · rw [hpar q, if_neg h1, if_neg h2]
        obtain ⟨ha, hb, hc'⟩ := w.par q hq
        refine ⟨ha, hb, ?_⟩
        have hPc : s.parents q ≠ c := by
          intro e
          rw [e] at hc'
          rcases hc' with h | h
          · exact h2 (Or.inl h.symm)
          · rcases hilow with hx | hx
            · omega
            · exact h2 (Or.inr ⟨by omega, h.symm⟩)
        have hPl : s.parents q ≠ l := by
          intro e
          rw [e] at hc'
          rcases hc' with h | h
          · exact h1 (Or.inl h.symm)
          · rcases hjC with hx | hx
            · omega
            · exact h1 (Or.inr ⟨by omega, h.symm⟩)
        rw [hchd (s.parents q), if_neg hPc, if_neg hPl]
        exact hc'
  have hparR2 : (swapStep ⟨fset s.frequency_table c
      (s.frequency_table c + 1), s.parents, s.children⟩ c l
      (s.frequency_table c + 1)).parents 626 = 0 := by
    have hcond1 : ¬((626 : Nat) = s.children l ∨
        (s.children l < 627 ∧ (626 : Nat) = s.children l + 1)) := by
      rintro (h | ⟨h1', h2'⟩) <;> omega
    have hcond2 : ¬((626 : Nat) = s.children c ∨
        (s.children c < 627 ∧ (626 : Nat) = s.children c + 1)) := by
      rintro (h | ⟨h1', h2'⟩) <;> omega
    rw [hpar 626, if_neg hcond1, if_neg hcond2]
    exact w.parR
  have hlpar2 : ∀ a, a < 314 →
      (swapStep ⟨fset s.frequency_table c (s.frequency_table c + 1),
        s.parents, s.children⟩ c l
        (s.frequency_table c + 1)).parents (627 + a) ≤ 626 ∧
      (swapStep ⟨fset s.frequency_table c (s.frequency_table c + 1),
        s.parents, s.children⟩ c l (s.frequency_table c + 1)).children
        ((swapStep ⟨fset s.frequency_table c (s.frequency_table c + 1),
          s.parents, s.children⟩ c l
          (s.frequency_table c + 1)).parents (627 + a)) = 627 + a := by
    intro a ha
    by_cases h1 : 627 + a = s.children l
    · constructor
      · rw [hpar (627 + a), if_pos (Or.inl h1)]
        omega
      · rw [hpar (627 + a), if_pos (Or.inl h1), hchd c, if_pos rfl]
        exact h1.symm
    · have hcond1 : ¬(627 + a = s.children l ∨
          (s.children l < 627 ∧ 627 + a = s.children l + 1)) := by
        rintro (h | ⟨hx1, hx2⟩)
        · exact h1 h
        · omega
      by_cases h2 : 627 + a = s.children c
      · constructor
        · rw [hpar (627 + a), if_neg hcond1, if_pos (Or.inl h2)]
          omega
        · rw [hpar (627 + a), if_neg hcond1, if_pos (Or.inl h2), hchd l,
            if_neg (by omega), if_pos rfl]
          exact h2.symm
      · have hcond2 : ¬(627 + a = s.children c ∨
            (s.children c < 627 ∧ 627 + a = s.children c + 1)) := by
          rintro (h | ⟨hx1, hx2⟩)
          · exact h2 h
          · omega
        obtain ⟨ha1, ha2⟩ := w.lpar a ha
        have hPc : s.parents (627 + a) ≠ c := by
          intro e
          rw [e] at ha2
          exact h2 ha2.symm
        have hPl : s.parents (627 + a) ≠ l := by
          intro e
          rw [e] at ha2
          exact h1 ha2.symm
        constructor
        · rw [hpar (627 + a), if_neg hcond1, if_neg hcond2]
          exact ha1
        · rw [hpar (627 + a), if_neg hcond1, if_neg hcond2,
            hchd (s.parents (627 + a)), if_neg hPc, if_neg hPl]
          exact ha2
  have hsum2 : ∀ p, p ≤ 626 →
      (swapStep ⟨fset s.frequency_table c (s.frequency_table c + 1),
        s.parents, s.children⟩ c l
        (s.frequency_table c + 1)).children p < 627 →
      (626 ≤ l ∨ p ≠ s.parents l) →
      (swapStep ⟨fset s.frequency_table c (s.frequency_table c + 1),
        s.parents, s.children⟩ c l
        (s.frequency_table c + 1)).frequency_table p =
      (swapStep ⟨fset s.frequency_table c (s.frequency_table c + 1),
        s.parents, s.children⟩ c l
        (s.frequency_table c + 1)).frequency_table
        ((swapStep ⟨fset s.frequency_table c (s.frequency_table c + 1),
          s.parents, s.children⟩ c l
          (s.frequency_table c + 1)).children p) +
      (swapStep ⟨fset s.frequency_table c (s.frequency_table c + 1),
        s.parents, s.children⟩ c l
        (s.frequency_table c + 1)).frequency_table
        ((swapStep ⟨fset s.frequency_table c (s.frequency_table c + 1),
          s.parents, s.children⟩ c l
          (s.frequency_table c + 1)).children p + 1) := by
    intro p hp
    rw [hchd p]
    by_cases hpc : p = c
    · rw [if_pos hpc]
      intro hj627 hexcl
      subst hpc
      rw [hfq p, hfq (s.children l), hfq (s.children l + 1),
        if_neg (by omega), if_neg (by omega), if_neg (by omega)]
      have hsumL := w.sumD l hl2 (by omega) hj627
      omega
    · rw [if_neg hpc]
      by_cases hpl : p = l
      · rw [if_pos hpl]
        intro hi627 hexcl
        subst hpl
        rw [hfq p, hfq (s.children c), hfq (s.children c + 1),
          if_pos rfl, if_neg (by omega), if_neg (by omega)]
        have hsumC := w.sumC hi627
        omega
      · rw [if_neg hpl]
        intro hcp hexcl
        have hb1 : s.children p ≠ l := by
          intro e
          have hu := block_unique w.pconfL hp hcp (Or.inl e)
          rcases hexcl with h | h
          · have hroot := w.parR
            have hcpos := w.chdPos p hp hcp
            have hl626 : l = 626 := by omega
            rw [hl626, hroot] at hu
            omega
          · exact h hu.symm
        have hb2 : s.children p + 1 ≠ l := by
          intro e
          have hu := block_unique w.pconfL hp hcp (Or.inr e)
          rcases hexcl with h | h
          · have hroot := w.parR
            have hcpos := w.chdPos p hp hcp
            have hl626 : l = 626 := by omega
            rw [hl626, hroot] at hu
            omega
          · exact h hu.symm
        rw [hfq p, hfq (s.children p), hfq (s.children p + 1),
          if_neg hpl, if_neg hb1, if_neg hb2]
        exact w.sumD p hp hpc hcp
  have hsumP : l < 626 →
      (swapStep ⟨fset s.frequency_table c (s.frequency_table c + 1),
        s.parents, s.children⟩ c l
        (s.frequency_table c + 1)).frequency_table (s.parents l) + 1 =
      (swapStep ⟨fset s.frequency_table c (s.frequency_table c + 1),
        s.parents, s.children⟩ c l
        (s.frequency_table c + 1)).frequency_table
        ((swapStep ⟨fset s.frequency_table c (s.frequency_table c + 1),
          s.parents, s.children⟩ c l
          (s.frequency_table c + 1)).children (s.parents l)) +
      (swapStep ⟨fset s.frequency_table c (s.frequency_table c + 1),
        s.parents, s.children⟩ c l
        (s.frequency_table c + 1)).frequency_table
        ((swapStep ⟨fset s.frequency_table c (s.frequency_table c + 1),
          s.parents, s.children⟩ c l
          (s.frequency_table c + 1)).children (s.parents l) + 1) := by
    intro hllt
    obtain ⟨hp1, hp2, hp3⟩ := w.par l hllt
    have hcpP : s.children (s.parents l) < 627 := by
      rcases hp3 with h | h <;> omega
    have hchdP : (swapStep ⟨fset s.frequency_table c
        (s.frequency_table c + 1), s.parents, s.children⟩ c l
        (s.frequency_table c + 1)).children (s.parents l) =
        s.children (s.parents l) := by
      rw [hchd (s.parents l), if_neg (by omega), if_neg (by omega)]
    rw [hchdP]
    have hPsum := w.sumD (s.parents l) hp2 (by omega) hcpP
    rcases hp3 with he | he
    · rw [he] at hPsum ⊢
      rw [hfq (s.parents l), hfq l, hfq (l + 1), if_neg (by omega),
        if_pos rfl, if_neg (by omega)]
      omega
    · rw [he] at hPsum ⊢
      rw [hfq (s.parents l), hfq (s.children (s.parents l)), hfq l,
        if_neg (by omega), if_neg (by omega), if_pos rfl]
      omega
  refine ⟨hparl, ?_, ?_⟩
  · intro hl626
    subst hl626
    refine ⟨hsorted2, hsent2, hpos2, ?_, hchdRange2, hchdPos2, hpconfL2,
      hpconfF2, hpar2, hparR2, hlpar2, ?_⟩
    · rw [hfq 626, if_pos rfl]
      have := w.rootB
      omega
    · intro p hp hcp
      exact hsum2 p hp hcp (Or.inl (by omega))
  · intro hllt
    obtain ⟨hp1, hp2, _⟩ := w.par l hllt
    refine ⟨hp1, hp2, hsorted2, hsent2, hpos2, ?_, hchdRange2, hchdPos2,
      hpconfL2, hpconfF2, hpar2, hparR2, hlpar2, ?_, ?_⟩
    · rw [hfq 626, if_neg (by omega)]
      exact w.rootB
    · intro p hp hpP hcp
      exact hsum2 p hp hcp (Or.inr hpP)
    · intro hcpX
      exact hsumP hllt

theorem updateWalk_succ_noswap (s : Huff) (c fuel : Nat)
    (h : ¬(fset s.frequency_table c (s.frequency_table c + 1) c >
      fset s.frequency_table c (s.frequency_table c + 1) (c + 1))) :
    updateWalk s c (fuel + 1) =
      if s.parents c = 0
      then ⟨fset s.frequency_table c (s.frequency_table c + 1),
        s.parents, s.children⟩
      else updateWalk ⟨fset s.frequency_table c
        (s.frequency_table c + 1), s.parents, s.children⟩
        (s.parents c) fuel := by
  rw [updateWalk]
  simp only [if_neg h]

theorem updateWalk_succ_swap (s : Huff) (c fuel : Nat)
    (h : fset s.frequency_table c (s.frequency_table c + 1) c >
      fset s.frequency_table c (s.frequency_table c + 1) (c + 1)) :
    updateWalk s c (fuel + 1) =
      if (swapStep ⟨fset s.frequency_table c (s.frequency_table c + 1),
          s.parents, s.children⟩ c
          (scanUp (fset s.frequency_table c (s.frequency_table c + 1))
            (fset s.frequency_table c (s.frequency_table c + 1) c)
            (c + 2) 700 - 1)
          (fset s.frequency_table c
            (s.frequency_table c + 1) c)).parents
          (scanUp (fset s.frequency_table c (s.frequency_table c + 1))
            (fset s.frequency_table c (s.frequency_table c + 1) c)
            (c + 2) 700 - 1) = 0
      then swapStep ⟨fset s.frequency_table c (s.frequency_table c + 1),
          s.parents, s.children⟩ c
          (scanUp (fset s.frequency_table c (s.frequency_table c + 1))
            (fset s.frequency_table c (s.frequency_table c + 1) c)
            (c + 2) 700 - 1)
          (fset s.frequency_table c (s.frequency_table c + 1) c)
      else updateWalk
        (swapStep ⟨fset s.frequency_table c (s.frequency_table c + 1),
          s.parents, s.children⟩ c
          (scanUp (fset s.frequency_table c (s.frequency_table c + 1))
            (fset s.frequency_table c (s.frequency_table c + 1) c)
            (c + 2) 700 - 1)
          (fset s.frequency_table c (s.frequency_table c + 1) c))
        ((swapStep ⟨fset s.frequency_table c (s.frequency_table c + 1),
          s.parents, s.children⟩ c
          (scanUp (fset s.frequency_table c (s.frequency_table c + 1))
            (fset s.frequency_table c (s.frequency_table c + 1) c)
            (c + 2) 700 - 1)
          (fset s.frequency_table c
            (s.frequency_table c + 1) c)).parents
          (scanUp (fset s.frequency_table c (s.frequency_table c + 1))
            (fset s.frequency_table c (s.frequency_table c + 1) c)
            (c + 2) 700 - 1)) fuel := by
  rw [updateWalk]
  simp only [if_pos h]

/-- One iteration of the `update` walk either ends at the root with the
full invariant restored, or moves to a strictly higher current node
with the walk invariant. -/
theorem walk_step (s : Huff) (c : Nat) (w : WInv s c) (fuel : Nat) :
    Inv (updateWalk s c (fuel + 1)) ∨
    (∃ s' c', updateWalk s c (fuel + 1) = updateWalk s' c' fuel ∧
      WInv s' c' ∧ c < c' ∧ c' ≤ 626) := by
  have hf1c : fset s.frequency_table c (s.frequency_table c + 1) c =
      s.frequency_table c + 1 := fset_same _ _ _
  by_cases hcond : s.frequency_table (c + 1) < s.frequency_table c + 1
  · -- exchange branch
    have hcondX : fset s.frequency_table c (s.frequency_table c + 1) c >
        fset s.frequency_table c (s.frequency_table c + 1) (c + 1) := by
      rw [fset_same, fset_other _ _ (by omega)]
      omega
    have hc626 : c < 626 := by
      rcases Nat.lt_or_ge c 626 with h | h
      · exact h
      · exfalso
        have he : c = 626 := by
          have := w.hc
          omega
        subst he
        have hs : s.frequency_table (626 + 1) = 65535 := w.sentinel
        have := w.rootB
        omega
    have hstop : fset s.frequency_table c (s.frequency_table c + 1) c ≤
        fset s.frequency_table c (s.frequency_table c + 1) 627 := by
      rw [fset_same, fset_other _ _ (by omega), w.sentinel]
      have hm : s.frequency_table c ≤ s.frequency_table 626 :=
        sorted_mono w.sorted (by omega) (by omega)
      have := w.rootB
      omega
    obtain ⟨L, hLeq, hL1, hL2, hL3, hL4⟩ :=
      scanUp_spec (fset s.frequency_table c (s.frequency_table c + 1))
        (fset s.frequency_table c (s.frequency_table c + 1) c)
        (c + 2) 700 627 (by omega) (by omega) hstop
    have hl1 : c + 1 ≤ L - 1 := by omega
    have hl2 : L - 1 ≤ 626 := by omega
    have hrun : ∀ m, c ≤ m → m ≤ L - 1 →
        s.frequency_table m = s.frequency_table c := by
      intro m h1 h2
      rcases Nat.eq_or_lt_of_le h1 with rfl | h1'
      · rfl
      have hmlow : s.frequency_table c ≤ s.frequency_table m :=
        sorted_mono w.sorted (by omega) (by omega)
      rcases Nat.eq_or_lt_of_le (show c + 1 ≤ m by omega) with he | he
      · subst he
        omega
      · have hmiss := hL4 m (by omega) (by omega)
        rw [fset_same, fset_other _ _ (by omega)] at hmiss
        omega
    have hup : s.frequency_table c + 1 ≤ s.frequency_table (L - 1 + 1) := by
      have he : L - 1 + 1 = L := by omega
      rw [he]
      rw [fset_same, fset_other _ _ (by omega)] at hL3
      exact hL3
    obtain ⟨hparl, hInv626, hWlt⟩ := swap_winv s c (L - 1) w hl1 hl2 hrun hup
    rw [updateWalk_succ_swap s c fuel hcondX, hLeq, hf1c]
    rcases Nat.eq_or_lt_of_le hl2 with he626 | hlt626
    · -- the run reaches the root: swap increments the root, walk ends
      rw [he626] at hparl hInv626 ⊢
      rw [hparl, w.parR, if_pos rfl]
      exact Or.inl (hInv626 rfl)
    · obtain ⟨hprog, hwinv⟩ := hWlt hlt626
      rw [hparl, if_neg (by omega)]
      refine Or.inr ⟨_, _, rfl, hwinv, by omega, hwinv.hc⟩
  · -- no exchange
    have hcondX : ¬(fset s.frequency_table c (s.frequency_table c + 1) c >
        fset s.frequency_table c (s.frequency_table c + 1) (c + 1)) := by
      rw [fset_same, fset_other _ _ (by omega)]
      omega
    obtain ⟨hInv626, hWlt⟩ := noswap_winv s c w (by omega)
    rw [updateWalk_succ_noswap s c fuel hcondX]
    by_cases hc626 : c = 626
    · subst hc626
      rw [w.parR, if_pos rfl]
      exact Or.inl (hInv626 rfl)
    · have hclt : c < 626 := by
        have := w.hc
        omega
      obtain ⟨hprog, hwinv⟩ := hWlt hclt
      rw [if_neg (by omega)]
      exact Or.inr ⟨_, _, rfl, hwinv, hprog, hwinv.hc⟩

/-- The `update` walk, run with enough fuel from a state satisfying the
walk invariant, ends in a state satisfying the full invariant. -/
theorem updateWalk_inv : ∀ fuel s c, WInv s c → 626 - c < fuel →
    Inv (updateWalk s c fuel) := by
  intro fuel
  induction fuel with
  | zero =>
    intro s c w h
    have := w.hc
    omega
  | succ fuel ih =>
    intro s c w h
    rcases walk_step s c w fuel with hdone | ⟨s', c', heq, w', hlt, hle⟩
    · exact hdone
    · rw [heq]
      exact ih s' c' w' (by omega)

theorem sum_shift (f : Nat → Nat) :
    ∀ b a, a ≤ b → ∑ q ∈ Finset.Ico (a + 1) (b + 1), f (q - 1) =
      ∑ q ∈ Finset.Ico a b, f q := by
  intro b
  induction b with
  | zero =>
    intro a ha
    have ha0 : a = 0 := by omega
    subst ha0
    rw [show (0 + 1 : Nat) = 1 from rfl, Finset.Ico_self, Finset.Ico_self,
      Finset.sum_empty, Finset.sum_empty]
  | succ b ih =>
    intro a ha
    rcases Nat.eq_or_lt_of_le ha with rfl | hlt
    · rw [Finset.Ico_self, Finset.Ico_self, Finset.sum_empty,
        Finset.sum_empty]
    · rw [Finset.sum_Ico_succ_top (by omega : a + 1 ≤ b + 1),
        Finset.sum_Ico_succ_top (by omega : a ≤ b), ih a (by omega)]
      rfl

/-- In a well-formed tree the root count equals the sum of the leaf
counts: the child blocks of the internal nodes partition the non-root
positions, and each internal count is its block's sum. -/
theorem partition_sum (s : Huff) (hI : Inv s) :
    s.frequency_table 626 =
      ∑ p ∈ (Finset.range 627).filter
        (fun p => 627 ≤ s.children p), s.frequency_table p := by
  classical
  have hsplit :
      (∑ p ∈ (Finset.range 627).filter
          (fun p => 627 ≤ s.children p), s.frequency_table p) +
      (∑ p ∈ (Finset.range 627).filter
          (fun p => ¬627 ≤ s.children p), s.frequency_table p) =
      ∑ p ∈ Finset.range 627, s.frequency_table p :=
    Finset.sum_filter_add_sum_filter_not _ _ _
  have hblocks : ∀ p ∈ (Finset.range 627).filter
      (fun p => ¬627 ≤ s.children p),
      s.frequency_table p =
        ∑ q ∈ ({s.children p, s.children p + 1} : Finset Nat),
          s.frequency_table q := by
    intro p hp
    rw [Finset.mem_filter, Finset.mem_range] at hp
    rw [Finset.sum_pair (by omega)]
    exact hI.sum p (by omega) (by omega)
  have hdisj : ((Finset.range 627).filter
      (fun p => ¬627 ≤ s.children p) : Set Nat).PairwiseDisjoint
      (fun p => ({s.children p, s.children p + 1} : Finset Nat)) := by
    intro p hp p' hp' hne
    simp only [Finset.coe_filter, Set.mem_setOf_eq, Finset.mem_range] at hp hp'
    simp only [Function.onFun]
    rw [Finset.disjoint_left]
    intro x hx hx'
    simp only [Finset.mem_insert, Finset.mem_singleton] at hx hx'
    have h1 : s.parents x = p :=
      block_unique hI.pconfL (by omega) (by omega)
        (by rcases hx with h | h <;> [exact Or.inl h.symm;
          exact Or.inr h.symm])
    have h2 : s.parents x = p' :=
      block_unique hI.pconfL (by omega) (by omega)
        (by rcases hx' with h | h <;> [exact Or.inl h.symm;
          exact Or.inr h.symm])
    exact hne (h1.symm.trans h2)
  have hcover : ((Finset.range 627).filter
      (fun p => ¬627 ≤ s.children p)).biUnion
      (fun p => ({s.children p, s.children p + 1} : Finset Nat)) =
      Finset.range 626 := by
    ext q
    simp only [Finset.mem_biUnion, Finset.mem_filter, Finset.mem_range,
      Finset.mem_insert, Finset.mem_singleton]
    constructor
    · rintro ⟨p, ⟨hp1, hp2⟩, hq⟩
      have := hI.chdPos p (by omega) (by omega)
      omega
    · intro hq
      obtain ⟨h1, h2, h3⟩ := hI.par q hq
      refine ⟨s.parents q, ⟨by omega, by omega⟩, ?_⟩
      rcases h3 with h | h
      · exact Or.inl h.symm
      · exact Or.inr (by omega)
  have hbi : ∑ p ∈ (Finset.range 627).filter
      (fun p => ¬627 ≤ s.children p), s.frequency_table p =
      ∑ q ∈ Finset.range 626, s.frequency_table q := by
    rw [Finset.sum_congr rfl hblocks, ← Finset.sum_biUnion hdisj, hcover]
  have hsucc : ∑ p ∈ Finset.range 627, s.frequency_table p =
      (∑ p ∈ Finset.range 626, s.frequency_table p) +
        s.frequency_table 626 := Finset.sum_range_succ _ _
  omega

/-- A well-formed tree has exactly 314 leaf positions, in bijection
with the 314 symbol markers. -/
theorem leaf_count (s : Huff) (hI : Inv s) :
    ((Finset.range 627).filter (fun p => 627 ≤ s.children p)).card
      = 314 := by
  classical
  have h := Finset.card_bij'
    (fun (a : Nat) (_ : a ∈ Finset.range 314) => s.parents (627 + a))
    (fun (p : Nat) (_ : p ∈ (Finset.range 627).filter
      (fun p => 627 ≤ s.children p)) => s.children p - 627)
    ?_ ?_ ?_ ?_
  · rw [← h, Finset.card_range]
  · intro a ha
    dsimp only
    rw [Finset.mem_range] at ha
    obtain ⟨h1, h2⟩ := hI.lpar a ha
    rw [Finset.mem_filter, Finset.mem_range, h2]
    exact ⟨by omega, by omega⟩
  · intro p hp
    dsimp only
    rw [Finset.mem_filter, Finset.mem_range] at hp
    have := hI.chdRange p (by omega)
    rw [Finset.mem_range]
    omega
  · intro a ha
    dsimp only
    rw [Finset.mem_range] at ha
    obtain ⟨h1, h2⟩ := hI.lpar a ha
    rw [h2]
    omega
  · intro p hp
    dsimp only
    rw [Finset.mem_filter, Finset.mem_range] at hp
    have he : 627 + (s.children p - 627) = s.children p := by omega
    rw [he]
    exact hI.pconfF p (by omega) hp.2

/-- The leaf-compaction loop of `reconstruct`: scanning positions in
order, it copies each leaf's marker and halved count to the next free
low slot; the result holds every original leaf exactly once, sorted,
with the doubled prefix sum bounded by the old leaf-sum plus the count,
and the count is the number of original leaves. -/
theorem compactLoop_go (s0 : Huff) (hI : Inv s0) : ∀ fuel i j t,
    627 - i < fuel → j ≤ i → i ≤ 627 →
    (∀ q, j ≤ q → t.frequency_table q = s0.frequency_table q ∧
      t.children q = s0.children q) →
    (∀ q, t.parents q = s0.parents q) →
    (∀ m, m < j → ∃ p, p < i ∧ 627 ≤ s0.children p ∧
      t.children m = s0.children p ∧
      t.frequency_table m = (s0.frequency_table p + 1) / 2) →
    (∀ p, p < i → 627 ≤ s0.children p → ∃ m, m < j ∧
      t.children m = s0.children p ∧
      t.frequency_table m = (s0.frequency_table p + 1) / 2) →
    (∀ m m', m < j → m' < j → t.children m = t.children m' → m = m') →
    (∀ m, m + 1 < j → t.frequency_table m ≤ t.frequency_table (m + 1)) →
    j = ((Finset.range i).filter (fun p => 627 ≤ s0.children p)).card →
    2 * (∑ q ∈ Finset.Ico 0 j, t.frequency_table q) ≤
      (∑ p ∈ (Finset.range i).filter (fun p => 627 ≤ s0.children p),
        s0.frequency_table p) + j →
    (∀ q, (compactLoop t i j fuel).1.parents q = s0.parents q) ∧
    (∀ q, (compactLoop t i j fuel).2 ≤ q →
      (compactLoop t i j fuel).1.frequency_table q =
        s0.frequency_table q ∧
      (compactLoop t i j fuel).1.children q = s0.children q) ∧
    (∀ m, m < (compactLoop t i j fuel).2 → ∃ p, p < 627 ∧
      627 ≤ s0.children p ∧
      (compactLoop t i j fuel).1.children m = s0.children p ∧
      (compactLoop t i j fuel).1.frequency_table m =
        (s0.frequency_table p + 1) / 2) ∧
    (∀ p, p < 627 → 627 ≤ s0.children p → ∃ m,
      m < (compactLoop t i j fuel).2 ∧
      (compactLoop t i j fuel).1.children m = s0.children p ∧
      (compactLoop t i j fuel).1.frequency_table m =
        (s0.frequency_table p + 1) / 2) ∧
    (∀ m m', m < (compactLoop t i j fuel).2 →
      m' < (compactLoop t i j fuel).2 →
      (compactLoop t i j fuel).1.children m =
        (compactLoop t i j fuel).1.children m' → m = m') ∧
    (∀ m, m + 1 < (compactLoop t i j fuel).2 →
      (compactLoop t i j fuel).1.frequency_table m ≤
        (compactLoop t i j fuel).1.frequency_table (m + 1)) ∧
    (compactLoop t i j fuel).2 =
      ((Finset.range 627).filter (fun p => 627 ≤ s0.children p)).card ∧
    2 * (∑ q ∈ Finset.Ico 0 (compactLoop t i j fuel).2,
      (compactLoop t i j fuel).1.frequency_table q) ≤
      (∑ p ∈ (Finset.range 627).filter (fun p => 627 ≤ s0.children p),
        s0.frequency_table p) + (compactLoop t i j fuel).2 := by
  classical
  intro fuel
  induction fuel with
  | zero =>
    intro i j t hfuel
    omega
  | succ fuel ih =>
    intro i j t hfuel hji hi627 hframe hpar hprov hcover hinj hsort hcard
      hsum
    rcases Nat.lt_or_ge i 627 with hlt | hge
    · rw [compactLoop]
      have hfr := hframe i hji
      by_cases hleaf : 627 ≤ s0.children i
      · rw [if_pos hlt, if_pos (by rw [hfr.2]; exact hleaf)]
        have hfnew : ∀ q, (⟨fset t.frequency_table j
            ((t.frequency_table i + 1) / 2), t.parents,
            fset t.children j (t.children i)⟩ : Huff).frequency_table q =
            if q = j then (s0.frequency_table i + 1) / 2
            else t.frequency_table q := by
          intro q
          show fset t.frequency_table j ((t.frequency_table i + 1) / 2) q
            = _
          by_cases hq : q = j
          · subst hq
            rw [fset_same, if_pos rfl, hfr.1]
          · rw [fset_other _ _ hq, if_neg hq]
        have hcnew : ∀ q, (⟨fset t.frequency_table j
            ((t.frequency_table i + 1) / 2), t.parents,
            fset t.children j (t.children i)⟩ : Huff).children q =
            if q = j then s0.children i else t.children q := by
          intro q
          show fset t.children j (t.children i) q = _
          by_cases hq : q = j
          · subst hq
            rw [fset_same, if_pos rfl, hfr.2]
          · rw [fset_other _ _ hq, if_neg hq]
        refine ih (i + 1) (j + 1) _ (by omega) (by omega) (by omega)
          ?_ hpar ?_ ?_ ?_ ?_ ?_ ?_
        · intro q hq
          rw [hfnew q, hcnew q, if_neg (by omega), if_neg (by omega)]
          exact hframe q (by omega)
        · intro m hm
          rcases Nat.lt_or_ge m j with h | h
          · obtain ⟨p, h1, h2, h3, h4⟩ := hprov m h
            exact ⟨p, by omega, h2,
              by rw [hcnew m, if_neg (by omega)]; exact h3,
              by rw [hfnew m, if_neg (by omega)]; exact h4⟩
          · have hmj : m = j := by omega
            subst hmj
            exact ⟨i, by omega, hleaf, by rw [hcnew m, if_pos rfl],
              by rw [hfnew m, if_pos rfl]⟩
        · intro p hp hpl
          rcases Nat.lt_or_ge p i with h | h
          · obtain ⟨m, h1, h2, h3⟩ := hcover p h hpl
            exact ⟨m, by omega,
              by rw [hcnew m, if_neg (by omega)]; exact h2,
              by rw [hfnew m, if_neg (by omega)]; exact h3⟩
          · have hpi : p = i := by omega
            subst hpi
            exact ⟨j, by omega, by rw [hcnew j, if_pos rfl],
              by rw [hfnew j, if_pos rfl]⟩
        · intro m m' hm hm' he
          rw [hcnew m, hcnew m'] at he
          rcases Nat.lt_or_ge m j with h | h <;>
            rcases Nat.lt_or_ge m' j with h' | h'
          · rw [if_neg (by omega), if_neg (by omega)] at he
            exact hinj m m' h h' he
          · have : m' = j := by omega
            subst this
            rw [if_neg (by omega), if_pos rfl] at he
            exfalso
            obtain ⟨p, h1, h2, h3, h4⟩ := hprov m h
            rw [h3] at he
            have e1 := hI.pconfF p (by omega) h2
            have e2 := hI.pconfF i (by omega) hleaf
            rw [he] at e1
            rw [e1] at e2
            omega
          · have : m = j := by omega
            subst this
            rw [if_pos rfl, if_neg (by omega)] at he
            exfalso
            obtain ⟨p, h1, h2, h3, h4⟩ := hprov m' h'
            rw [h3] at he
            have e1 := hI.pconfF p (by omega) h2
            have e2 := hI.pconfF i (by omega) hleaf
            rw [← he] at e1
            rw [e1] at e2
            omega
          · omega
        · intro m hm
          rw [hfnew m, hfnew (m + 1)]
          rcases Nat.lt_or_ge (m + 1) j with h | h
          · rw [if_neg (by omega), if_neg (by omega)]
            exact hsort m h
          · have : m + 1 = j := by omega
            rw [if_neg (by omega), if_pos this]
            obtain ⟨p, h1, h2, h3, h4⟩ := hprov m (by omega)
            rw [h4]
            have hmono : s0.frequency_table p ≤ s0.frequency_table i :=
              sorted_mono hI.sorted (by omega) (by omega)
            omega
        · rw [Finset.range_succ, Finset.filter_insert, if_pos hleaf,
            Finset.card_insert_of_not_mem (by
              rw [Finset.mem_filter]
              rintro ⟨hmem, _⟩
              rw [Finset.mem_range] at hmem
              omega)]
          omega
        · have h1 : ∀ q ∈ Finset.Ico 0 j,
              (⟨fset t.frequency_table j ((t.frequency_table i + 1) / 2),
                t.parents, fset t.children j (t.children i)⟩ :
                Huff).frequency_table q = t.frequency_table q := by
            intro q hq
            rw [Finset.mem_Ico] at hq
            rw [hfnew q, if_neg (by omega)]
          have hsplit2 : ∑ q ∈ Finset.Ico 0 (j + 1),
              (⟨fset t.frequency_table j ((t.frequency_table i + 1) / 2),
                t.parents, fset t.children j (t.children i)⟩ :
                Huff).frequency_table q =
              (∑ q ∈ Finset.Ico 0 j, t.frequency_table q) +
                (s0.frequency_table i + 1) / 2 := by
            rw [Finset.sum_Ico_succ_top (by omega),
              Finset.sum_congr rfl h1, hfnew j, if_pos rfl]
          rw [Finset.range_succ, Finset.filter_insert, if_pos hleaf,
            Finset.sum_insert (by
              rw [Finset.mem_filter]
              rintro ⟨hmem, _⟩
              rw [Finset.mem_range] at hmem
              omega), hsplit2]
          have hhalf : 2 * ((s0.frequency_table i + 1) / 2) ≤
              s0.frequency_table i + 1 := by omega
          omega
      · rw [if_pos hlt, if_neg (by rw [hfr.2]; exact hleaf)]
        refine ih (i + 1) j t (by omega) (by omega) (by omega)
          hframe hpar ?_ ?_ hinj hsort ?_ ?_
        · intro m hm
          obtain ⟨p, h1, h2, h3, h4⟩ := hprov m hm
          exact ⟨p, by omega, h2, h3, h4⟩
        · intro p hp hpl
          rcases Nat.lt_or_ge p i with h | h
          · exact hcover p h hpl
          · have : p = i := by omega
            subst this
            omega
        · rw [Finset.range_succ, Finset.filter_insert, if_neg hleaf]
          exact hcard
        · rw [Finset.range_succ, Finset.filter_insert, if_neg hleaf]
          exact hsum
    · rw [compactLoop]
      rw [if_neg (by omega)]
      have hieq : i = 627 := by omega
      subst hieq
      exact ⟨hpar, hframe, hprov, hcover, hinj, hsort, hcard, hsum⟩

set_option maxRecDepth 8000 in
/-- The internal-node rebuilding loop of `reconstruct`: starting from
the compacted leaves, each iteration pairs the two cheapest unconsumed
entries, inserts their sum keeping the prefix sorted (the consumed pair
stays frozen below every later touch), and the final prefix is a
sorted, exactly-summed forest layout whose root holds the constant
window total. -/
theorem buildLoop_go (TH : Nat) (PAR : Nat → Nat) (FR7 : Nat → Nat) :
    ∀ fuel j t,
    627 - j < fuel → 314 ≤ j → j ≤ 627 →
    (∀ m, m + 1 < j → t.frequency_table m ≤ t.frequency_table (m + 1)) →
    (∀ m, m < j → 1 ≤ t.frequency_table m) →
    (∑ q ∈ Finset.Ico (2 * (j - 314)) j, t.frequency_table q) = TH →
    (∀ m, m < j → t.children m < 627 →
      (∃ u, t.children m = 2 * u) ∧ t.children m + 1 < m ∧
      t.children m + 2 ≤ 2 * (j - 314) ∧
      t.frequency_table m = t.frequency_table (t.children m) +
        t.frequency_table (t.children m + 1)) →
    (∀ m, m < j → t.children m < 941) →
    (∀ m m', m < j → m' < j → t.children m = t.children m' → m = m') →
    (∀ q, q < 2 * (j - 314) → ∃ m, m < j ∧ t.children m < 627 ∧
      (t.children m = q ∨ t.children m + 1 = q)) →
    (∀ a, a < 314 → ∃ m, m < j ∧ t.children m = 627 + a) →
    (∀ q, t.parents q = PAR q) →
    (∀ q, 627 ≤ q → t.frequency_table q = FR7 q) →
    (∀ m, m + 1 < 627 →
      (buildLoop t j (2 * (j - 314)) fuel).frequency_table m ≤
      (buildLoop t j (2 * (j - 314)) fuel).frequency_table (m + 1)) ∧
    (∀ m, m < 627 →
      1 ≤ (buildLoop t j (2 * (j - 314)) fuel).frequency_table m) ∧
    (buildLoop t j (2 * (j - 314)) fuel).frequency_table 626 = TH ∧
    (∀ m, m < 627 →
      (buildLoop t j (2 * (j - 314)) fuel).children m < 627 →
      (∃ u, (buildLoop t j (2 * (j - 314)) fuel).children m = 2 * u) ∧
      (buildLoop t j (2 * (j - 314)) fuel).children m + 1 < m ∧
      (buildLoop t j (2 * (j - 314)) fuel).children m + 2 ≤ 626 ∧
      (buildLoop t j (2 * (j - 314)) fuel).frequency_table m =
        (buildLoop t j (2 * (j - 314)) fuel).frequency_table
          ((buildLoop t j (2 * (j - 314)) fuel).children m) +
        (buildLoop t j (2 * (j - 314)) fuel).frequency_table
          ((buildLoop t j (2 * (j - 314)) fuel).children m + 1)) ∧
    (∀ m, m < 627 →
      (buildLoop t j (2 * (j - 314)) fuel).children m < 941) ∧
    (∀ m m', m < 627 → m' < 627 →
      (buildLoop t j (2 * (j - 314)) fuel).children m =
        (buildLoop t j (2 * (j - 314)) fuel).children m' → m = m') ∧
    (∀ q, q < 626 → ∃ m, m < 627 ∧
      (buildLoop t j (2 * (j - 314)) fuel).children m < 627 ∧
      ((buildLoop t j (2 * (j - 314)) fuel).children m = q ∨
        (buildLoop t j (2 * (j - 314)) fuel).children m + 1 = q)) ∧
    (∀ a, a < 314 → ∃ m, m < 627 ∧
      (buildLoop t j (2 * (j - 314)) fuel).children m = 627 + a) ∧
    (∀ q, (buildLoop t j (2 * (j - 314)) fuel).parents q = PAR q) ∧
    (∀ q, 627 ≤ q →
      (buildLoop t j (2 * (j - 314)) fuel).frequency_table q = FR7 q) := by
  intro fuel
  induction fuel with
  | zero =>
    intro j t hfuel
    omega
  | succ fuel ih =>
    intro j t hfuel hj314 hj627 hsort hpos hwin hint hrange huniq hbcov
      hmcov hpar hfr7
    rcases Nat.lt_or_ge j 627 with hlt | hge
    · rw [buildLoop]
      simp only []
      rw [if_pos hlt]
      obtain ⟨k0, hk0eq, hk01, hk02, hk03, hk04⟩ :=
        scanDown_spec
          (fset t.frequency_table j (t.frequency_table (2 * (j - 314)) +
            t.frequency_table (2 * (j - 314) + 1)))
          (fset t.frequency_table j (t.frequency_table (2 * (j - 314)) +
            t.frequency_table (2 * (j - 314) + 1)) j)
          (j - 1) 700 (2 * (j - 314) + 1) (by omega) (by omega)
          (by
            rw [fset_other _ _ (by omega), fset_same]
            omega)
      rw [hk0eq]
      rw [fset_other _ _ (by omega), fset_same] at hk03
      have hk04' : ∀ m, k0 + 1 ≤ m → m < j →
          t.frequency_table (2 * (j - 314)) +
            t.frequency_table (2 * (j - 314) + 1) < t.frequency_table m := by
        intro m h1 h2
        have := hk04 m (by omega) (by omega)
        rw [fset_same, fset_other _ _ (by omega)] at this
        exact this
      have hlek : ∀ m, m ≤ k0 →
          t.frequency_table m ≤ t.frequency_table (2 * (j - 314)) +
            t.frequency_table (2 * (j - 314) + 1) := by
        intro m hm
        have hmono : t.frequency_table m ≤ t.frequency_table k0 :=
          @mono_of_adj t.frequency_table j hsort m k0 hm (by omega)
        omega
      have hFR : ∀ q, q ≤ j →
          (⟨fset (shiftRight (fset t.frequency_table j
              (t.frequency_table (2 * (j - 314)) +
               t.frequency_table (2 * (j - 314) + 1))) (k0 + 1)
              ((j - (k0 + 1)) * 2)) (k0 + 1)
              (fset t.frequency_table j
                (t.frequency_table (2 * (j - 314)) +
                 t.frequency_table (2 * (j - 314) + 1)) j),
            t.parents,
            fset (shiftRight t.children (k0 + 1) ((j - (k0 + 1)) * 2))
              (k0 + 1) (2 * (j - 314))⟩ : Huff).frequency_table q =
          if q < k0 + 1 then t.frequency_table q
          else if q = k0 + 1 then
            t.frequency_table (2 * (j - 314)) +
              t.frequency_table (2 * (j - 314) + 1)
          else t.frequency_table (q - 1) := by
        intro q hq
        show fset (shiftRight _ _ _) (k0 + 1) _ q = _
        by_cases h1 : q = k0 + 1
        · subst h1
          rw [fset_same, fset_same, if_neg (by omega), if_pos rfl]
        · rw [fset_other _ _ h1]
          show (if k0 + 1 + 1 ≤ q ∧ q ≤ k0 + 1 + (j - (k0 + 1)) * 2
            then fset t.frequency_table j
              (t.frequency_table (2 * (j - 314)) +
               t.frequency_table (2 * (j - 314) + 1)) (q - 1)
            else fset t.frequency_table j
              (t.frequency_table (2 * (j - 314)) +
               t.frequency_table (2 * (j - 314) + 1)) q) = _
          rcases Nat.lt_or_ge q (k0 + 1) with h2 | h2
          · rw [if_neg (by omega), fset_other _ _ (by omega), if_pos h2]
          · rw [if_pos (by omega), fset_other _ _ (by omega),
              if_neg (by omega), if_neg h1]
      have hCH : ∀ q, q ≤ j →
          (⟨fset (shiftRight (fset t.frequency_table j
              (t.frequency_table (2 * (j - 314)) +
               t.frequency_table (2 * (j - 314) + 1))) (k0 + 1)
              ((j - (k0 + 1)) * 2)) (k0 + 1)
              (fset t.frequency_table j
                (t.frequency_table (2 * (j - 314)) +
                 t.frequency_table (2 * (j - 314) + 1)) j),
            t.parents,
            fset (shiftRight t.children (k0 + 1) ((j - (k0 + 1)) * 2))
              (k0 + 1) (2 * (j - 314))⟩ : Huff).children q =
          if q < k0 + 1 then t.children q
          else if q = k0 + 1 then 2 * (j - 314)
          else t.children (q - 1) := by
        intro q hq
        show fset (shiftRight _ _ _) (k0 + 1) _ q = _
        by_cases h1 : q = k0 + 1
        · subst h1
          rw [fset_same, if_neg (by omega), if_pos rfl]
        · rw [fset_other _ _ h1]
          show (if k0 + 1 + 1 ≤ q ∧ q ≤ k0 + 1 + (j - (k0 + 1)) * 2
            then t.children (q - 1) else t.children q) = _
          rcases Nat.lt_or_ge q (k0 + 1) with h2 | h2
          · rw [if_neg (by omega), if_pos h2]
          · rw [if_pos (by omega), if_neg (by omega), if_neg h1]
      have he2 : 2 * (j - 314) + 2 = 2 * (j + 1 - 314) := by omega
      rw [he2]
      refine ih (j + 1) _ (by omega) (by omega) (by omega)
        ?_ ?_ ?_ ?_ ?_ ?_ ?_ ?_ hpar ?_
      · intro m hm
        rw [hFR m (by omega), hFR (m + 1) (by omega)]
        rcases Nat.lt_or_ge (m + 1) (k0 + 1) with h1 | h1
        · rw [if_pos (by omega), if_pos h1]
          exact hsort m (by omega)
        · rcases Nat.eq_or_lt_of_le h1 with h2 | h2
          · rw [if_pos (by omega), if_neg (by omega), if_pos h2.symm]
            exact hlek m (by omega)
          · rcases Nat.lt_or_ge m (k0 + 1) with h3 | h3
            · have hmk : m = k0 + 1 := by omega
              rw [if_neg (by omega), if_pos hmk, if_neg (by omega),
                if_neg (by omega)]
              have := hk04' (m + 1 - 1) (by omega) (by omega)
              omega
            · rcases Nat.eq_or_lt_of_le h3 with h4 | h4
              · rw [if_neg (by omega), if_pos h4.symm, if_neg (by omega),
                  if_neg (by omega)]
                have := hk04' (m + 1 - 1) (by omega) (by omega)
                omega
              · rw [if_neg (by omega), if_neg (by omega),
                  if_neg (by omega), if_neg (by omega)]
                have := hsort (m - 1) (by omega)
                have he3 : m - 1 + 1 = m := by omega
                rw [he3] at this
                have he4 : m + 1 - 1 = m := by omega
                rw [he4]
                exact this
      · intro m hm
        rw [hFR m (by omega)]
        split_ifs with h1 h2
        · exact hpos m (by omega)
        · have h3 := hpos (2 * (j - 314)) (by omega)
          omega
        · exact hpos (m - 1) (by omega)
      · rw [← he2]
        have hsplit1 : ∑ q ∈ Finset.Ico (2 * (j - 314) + 2) (j + 1),
            (⟨fset (shiftRight (fset t.frequency_table j
                (t.frequency_table (2 * (j - 314)) +
                 t.frequency_table (2 * (j - 314) + 1))) (k0 + 1)
                ((j - (k0 + 1)) * 2)) (k0 + 1)
                (fset t.frequency_table j
                  (t.frequency_table (2 * (j - 314)) +
                   t.frequency_table (2 * (j - 314) + 1)) j),
              t.parents,
              fset (shiftRight t.children (k0 + 1) ((j - (k0 + 1)) * 2))
                (k0 + 1) (2 * (j - 314))⟩ : Huff).frequency_table q =
            (∑ q ∈ Finset.Ico (2 * (j - 314) + 2) (k0 + 1),
              t.frequency_table q) +
            ((t.frequency_table (2 * (j - 314)) +
              t.frequency_table (2 * (j - 314) + 1)) +
            ∑ q ∈ Finset.Ico (k0 + 2) (j + 1),
              t.frequency_table (q - 1)) := by
          rw [← Finset.sum_Ico_consecutive _
            (show 2 * (j - 314) + 2 ≤ k0 + 1 by omega)
            (show k0 + 1 ≤ j + 1 by omega)]
          congr 1
          · refine Finset.sum_congr rfl ?_
            intro q hq
            rw [Finset.mem_Ico] at hq
            rw [hFR q (by omega), if_pos (by omega)]
          · rw [← Finset.sum_Ico_consecutive _
              (show k0 + 1 ≤ k0 + 2 by omega)
              (show k0 + 2 ≤ j + 1 by omega)]
            congr 1
            · rw [Finset.sum_Ico_succ_top (by omega), Finset.Ico_self,
                Finset.sum_empty, hFR (k0 + 1) (by omega),
                if_neg (by omega), if_pos rfl]
              omega
            · refine Finset.sum_congr rfl ?_
              intro q hq
              rw [Finset.mem_Ico] at hq
              rw [hFR q (by omega), if_neg (by omega), if_neg (by omega)]
        rw [hsplit1]
        have hshift : ∑ q ∈ Finset.Ico (k0 + 2) (j + 1),
            t.frequency_table (q - 1) =
            ∑ q ∈ Finset.Ico (k0 + 1) j, t.frequency_table q :=
          sum_shift t.frequency_table j (k0 + 1) (by omega)
        rw [hshift]
        have hjoin : (∑ q ∈ Finset.Ico (2 * (j - 314) + 2) (k0 + 1),
            t.frequency_table q) +
            ∑ q ∈ Finset.Ico (k0 + 1) j, t.frequency_table q =
            ∑ q ∈ Finset.Ico (2 * (j - 314) + 2) j,
              t.frequency_table q :=
          Finset.sum_Ico_consecutive _ (by omega) (by omega)
        have hpeel : ∑ q ∈ Finset.Ico (2 * (j - 314)) j,
            t.frequency_table q =
            t.frequency_table (2 * (j - 314)) +
            (t.frequency_table (2 * (j - 314) + 1) +
            ∑ q ∈ Finset.Ico (2 * (j - 314) + 2) j,
              t.frequency_table q) := by
          rw [← Finset.sum_Ico_consecutive _
            (show 2 * (j - 314) ≤ 2 * (j - 314) + 1 by omega)
            (show 2 * (j - 314) + 1 ≤ j by omega),
            ← Finset.sum_Ico_consecutive _
            (show 2 * (j - 314) + 1 ≤ 2 * (j - 314) + 2 by omega)
            (show 2 * (j - 314) + 2 ≤ j by omega)]
          rw [Finset.sum_Ico_succ_top (show 2 * (j - 314) ≤
            2 * (j - 314) by omega), Finset.Ico_self, Finset.sum_empty,
            Finset.sum_Ico_succ_top (show 2 * (j - 314) + 1 ≤
            2 * (j - 314) + 1 by omega), Finset.Ico_self,
            Finset.sum_empty]
          omega
        rw [hpeel] at hwin
        omega
      · intro m hm hcm
        rw [hCH m (by omega)] at hcm ⊢
        rw [hFR m (by omega)]
        rcases Nat.lt_or_ge m (k0 + 1) with h1 | h1
        · rw [if_pos h1] at hcm ⊢
          rw [if_pos h1]
          obtain ⟨he, hlt1, hle2, hsum1⟩ := hint m (by omega) hcm
          refine ⟨he, hlt1, by omega, ?_⟩
          rw [hFR (t.children m) (by omega), if_pos (by omega),
            hFR (t.children m + 1) (by omega), if_pos (by omega)]
          exact hsum1
        · rcases Nat.eq_or_lt_of_le h1 with h2 | h2
          · rw [if_neg (by omega), if_pos h2.symm] at hcm ⊢
            rw [if_neg (by omega), if_pos h2.symm]
            refine ⟨⟨j - 314, rfl⟩, by omega, by omega, ?_⟩
            rw [hFR (2 * (j - 314)) (by omega), if_pos (by omega),
              hFR (2 * (j - 314) + 1) (by omega), if_pos (by omega)]
          · rw [if_neg (by omega), if_neg (by omega)] at hcm ⊢
            rw [if_neg (by omega), if_neg (by omega)]
            obtain ⟨he, hlt1, hle2, hsum1⟩ := hint (m - 1) (by omega) hcm
            refine ⟨he, by omega, by omega, ?_⟩
            rw [hFR (t.children (m - 1)) (by omega), if_pos (by omega),
              hFR (t.children (m - 1) + 1) (by omega),
              if_pos (by omega)]
            exact hsum1
      · intro m hm
        rw [hCH m (by omega)]
        split_ifs with h1 h2
        · exact hrange m (by omega)
        · omega
        · exact hrange (m - 1) (by omega)
      · intro m m' hm hm' he
        rw [hCH m (by omega), hCH m' (by omega)] at he
        by_cases h1 : m = k0 + 1 <;> by_cases h2 : m' = k0 + 1
        · omega
        · exfalso
          subst h1
          rw [if_neg (by omega), if_pos rfl] at he
          rcases Nat.lt_or_ge m' (k0 + 1) with h3 | h3
          · rw [if_pos h3] at he
            rcases Nat.lt_or_ge (t.children m') 627 with h4 | h4
            · obtain ⟨_, _, hle2, _⟩ := hint m' (by omega) h4
              omega
            · omega
          · rw [if_neg (by omega), if_neg h2] at he
            rcases Nat.lt_or_ge (t.children (m' - 1)) 627 with h4 | h4
            · obtain ⟨_, _, hle2, _⟩ := hint (m' - 1) (by omega) h4
              omega
            · omega
        · exfalso
          subst h2
          rw [if_neg (by omega : ¬(k0 + 1 < k0 + 1)),
            if_pos (rfl : (k0 + 1 : Nat) = k0 + 1)] at he
          rcases Nat.lt_or_ge m (k0 + 1) with h3 | h3
          · rw [if_pos h3] at he
            rcases Nat.lt_or_ge (t.children m) 627 with h4 | h4
            · obtain ⟨_, _, hle2, _⟩ := hint m (by omega) h4
              omega
            · omega
          · rw [if_neg (by omega), if_neg h1] at he
            rcases Nat.lt_or_ge (t.children (m - 1)) 627 with h4 | h4
            · obtain ⟨_, _, hle2, _⟩ := hint (m - 1) (by omega) h4
              omega
            · omega
        · rcases Nat.lt_or_ge m (k0 + 1) with h3 | h3 <;>
            rcases Nat.lt_or_ge m' (k0 + 1) with h3' | h3'
          · rw [if_pos h3, if_pos h3'] at he
            exact huniq m m' (by omega) (by omega) he
          · rw [if_pos h3, if_neg (by omega), if_neg h2] at he
            have := huniq m (m' - 1) (by omega) (by omega) he
            omega
          · rw [if_neg (by omega), if_neg h1, if_pos h3'] at he
            have := huniq (m - 1) m' (by omega) (by omega) he
            omega
          · rw [if_neg (by omega), if_neg h1, if_neg (by omega),
              if_neg h2] at he
            have := huniq (m - 1) (m' - 1) (by omega) (by omega) he
            omega
      · intro q hq
        rcases Nat.lt_or_ge q (2 * (j - 314)) with h1 | h1
        · obtain ⟨m, hm1, hm2, hm3⟩ := hbcov q h1
          rcases Nat.lt_or_ge m (k0 + 1) with h2 | h2
          · refine ⟨m, by omega, ?_, ?_⟩
            · rw [hCH m (by omega), if_pos h2]
              exact hm2
            · rw [hCH m (by omega), if_pos h2]
              exact hm3
          · refine ⟨m + 1, by omega, ?_, ?_⟩
            · rw [hCH (m + 1) (by omega), if_neg (by omega),
                if_neg (by omega)]
              have he3 : m + 1 - 1 = m := by omega
              rw [he3]
              exact hm2
            · rw [hCH (m + 1) (by omega), if_neg (by omega),
                if_neg (by omega)]
              have he3 : m + 1 - 1 = m := by omega
              rw [he3]
              exact hm3
        · refine ⟨k0 + 1, by omega, ?_, ?_⟩
          · rw [hCH (k0 + 1) (by omega), if_neg (by omega), if_pos rfl]
            omega
          · rw [hCH (k0 + 1) (by omega), if_neg (by omega), if_pos rfl]
            omega
      · intro a ha
        obtain ⟨m, hm1, hm2⟩ := hmcov a ha
        rcases Nat.lt_or_ge m (k0 + 1) with h2 | h2
        · refine ⟨m, by omega, ?_⟩
          rw [hCH m (by omega), if_pos h2]
          exact hm2
        · refine ⟨m + 1, by omega, ?_⟩
          rw [hCH (m + 1) (by omega), if_neg (by omega),
            if_neg (by omega)]
          have he3 : m + 1 - 1 = m := by omega
          rw [he3]
          exact hm2
      · intro q hq
        show fset (shiftRight _ _ _) (k0 + 1) _ q = FR7 q
        rw [fset_other _ _ (by omega)]
        show (if k0 + 1 + 1 ≤ q ∧ q ≤ k0 + 1 + (j - (k0 + 1)) * 2
          then fset t.frequency_table j
            (t.frequency_table (2 * (j - 314)) +
             t.frequency_table (2 * (j - 314) + 1)) (q - 1)
          else fset t.frequency_table j
            (t.frequency_table (2 * (j - 314)) +
             t.frequency_table (2 * (j - 314) + 1)) q) = FR7 q
        rw [if_neg (by omega), fset_other _ _ (by omega)]
        exact hfr7 q hq
    · rw [buildLoop]
      rw [if_neg (by omega)]
      have hjeq : j = 627 := by omega
      subst hjeq
      have hwin626 : t.frequency_table 626 = TH := by
        rw [show 2 * (627 - 314) = 626 from rfl] at hwin
        rw [show (627 : Nat) = 626 + 1 from rfl,
          Finset.sum_Ico_succ_top (by omega), Finset.Ico_self,
          Finset.sum_empty] at hwin
        omega
      refine ⟨hsort, hpos, hwin626, ?_, hrange, huniq, ?_, hmcov, hpar,
        hfr7⟩
      · intro m hm hcm
        obtain ⟨he, h1, h2, h3⟩ := hint m hm hcm
        exact ⟨he, h1, by omega, h3⟩
      · intro q hq
        exact hbcov q (by omega)

/-- The final loop of `reconstruct`: wiring the parent slots from the
children table.  Distinct internal nodes own disjoint child pairs (the
bases are distinct and even) and markers are unique, so every written
slot keeps its value and every untouched slot keeps the old one. -/
theorem rebuildLoop_go (PAR0 : Nat → Nat) : ∀ fuel i t,
    627 - i < fuel → i ≤ 627 →
    (∀ m, m < 627 → t.children m < 627 → t.children m + 1 < m) →
    (∀ m m', m < 627 → m' < 627 → t.children m = t.children m' →
      m = m') →
    (∀ m, m < 627 → t.children m < 627 → ∃ u, t.children m = 2 * u) →
    (∀ m, m < i → (t.children m < 627 →
      t.parents (t.children m) = m ∧
        t.parents (t.children m + 1) = m) ∧
      (627 ≤ t.children m → t.parents (t.children m) = m)) →
    (∀ x, (∀ m, m < i → t.children m ≠ x ∧
      (t.children m < 627 → t.children m + 1 ≠ x)) →
      t.parents x = PAR0 x) →
    (∀ q, (rebuildLoop t i fuel).frequency_table q =
      t.frequency_table q) ∧
    (∀ q, (rebuildLoop t i fuel).children q = t.children q) ∧
    (∀ m, m < 627 → (t.children m < 627 →
      (rebuildLoop t i fuel).parents (t.children m) = m ∧
        (rebuildLoop t i fuel).parents (t.children m + 1) = m) ∧
      (627 ≤ t.children m →
        (rebuildLoop t i fuel).parents (t.children m) = m)) ∧
    (∀ x, (∀ m, m < 627 → t.children m ≠ x ∧
      (t.children m < 627 → t.children m + 1 ≠ x)) →
      (rebuildLoop t i fuel).parents x = PAR0 x) := by
  intro fuel
  induction fuel with
  | zero =>
    intro i t hfuel
    omega
  | succ fuel ih =>
    intro i t hfuel hi627 hcpos huniq heven hdone huntouched
    rcases Nat.lt_or_ge i 627 with hlt | hge
    · rw [rebuildLoop]
      rw [if_pos hlt]
      by_cases hk : 627 ≤ t.children i
      · rw [if_pos hk]
        have hstep := ih (i + 1)
          ⟨t.frequency_table, fset t.parents (t.children i) i,
            t.children⟩ (by omega) (by omega) hcpos huniq heven ?_ ?_
        · exact hstep
        · intro m hm
          constructor
          · intro hint
            rcases Nat.lt_or_ge m i with h | h
            · obtain ⟨h1, h2⟩ := (hdone m h).1 hint
              constructor
              · show fset t.parents (t.children i) i (t.children m) = m
                rw [fset_other _ _ (fun e =>
                  by have := huniq m i (by omega) (by omega) e; omega)]
                exact h1
              · show fset t.parents (t.children i) i (t.children m + 1)
                  = m
                have hcm := hcpos m (by omega) hint
                rw [fset_other _ _ (by omega)]
                exact h2
            · exfalso
              have hint2 : t.children m < 627 := hint
              have hmi : m = i := by omega
              rw [hmi] at hint2
              omega
          · intro hmk
            rcases Nat.lt_or_ge m i with h | h
            · have h1 := (hdone m h).2 hmk
              show fset t.parents (t.children i) i (t.children m) = m
              rw [fset_other _ _ (fun e =>
                by have := huniq m i (by omega) (by omega) e; omega)]
              exact h1
            · have hmi : m = i := by omega
              subst hmi
              show fset t.parents (t.children m) m (t.children m) = m
              rw [fset_same]
        · intro x hx
          have hx2 : ∀ m, m < i + 1 → t.children m ≠ x ∧
              (t.children m < 627 → t.children m + 1 ≠ x) := hx
          show fset t.parents (t.children i) i x = PAR0 x
          rw [fset_other _ _ (by
            have := (hx2 i (by omega)).1
            omega)]
          refine huntouched x ?_
          intro m hm
          exact hx2 m (by omega)
      · rw [if_neg hk]
        have hstep := ih (i + 1)
          ⟨t.frequency_table,
            fset (fset t.parents (t.children i + 1) i) (t.children i) i,
            t.children⟩ (by omega) (by omega) hcpos huniq heven ?_ ?_
        · exact hstep
        · intro m hm
          have hki : t.children i < 627 := by omega
          obtain ⟨ui, hui⟩ := heven i (by omega) hki
          constructor
          · intro hint
            rcases Nat.lt_or_ge m i with h | h
            · obtain ⟨h1, h2⟩ := (hdone m h).1 hint
              obtain ⟨um, hum⟩ := heven m (by omega) hint
              have hne : t.children m ≠ t.children i := fun e =>
                by have := huniq m i (by omega) (by omega) e; omega
              constructor
              · show fset (fset t.parents (t.children i + 1) i)
                  (t.children i) i (t.children m) = m
                rw [fset_other _ _ hne, fset_other _ _ (by omega)]
                exact h1
              · show fset (fset t.parents (t.children i + 1) i)
                  (t.children i) i (t.children m + 1) = m
                rw [fset_other _ _ (by omega), fset_other _ _ (by omega)]
                exact h2
            · have hmi : m = i := by omega
              subst hmi
              constructor
              · show fset (fset t.parents (t.children m + 1) m)
                  (t.children m) m (t.children m) = m
                rw [fset_same]
              · show fset (fset t.parents (t.children m + 1) m)
                  (t.children m) m (t.children m + 1) = m
                rw [fset_other _ _ (by omega), fset_same]
          · intro hmk
            rcases Nat.lt_or_ge m i with h | h
            · have h1 := (hdone m h).2 hmk
              have hmk2 : 627 ≤ t.children m := hmk
              show fset (fset t.parents (t.children i + 1) i)
                (t.children i) i (t.children m) = m
              have := hcpos i (by omega) hki
              rw [fset_other _ _ (by omega), fset_other _ _ (by omega)]
              exact h1
            · exfalso
              have hmk2 : 627 ≤ t.children m := hmk
              have hmi : m = i := by omega
              rw [hmi] at hmk2
              omega
        · intro x hx
          have hx0 : ∀ m, m < i + 1 → t.children m ≠ x ∧
              (t.children m < 627 → t.children m + 1 ≠ x) := hx
          show fset (fset t.parents (t.children i + 1) i)
            (t.children i) i x = PAR0 x
          have hx1 := (hx0 i (by omega)).1
          have hx2 := (hx0 i (by omega)).2 (by omega)
          rw [fset_other _ _ (by omega), fset_other _ _ (by omega)]
          refine huntouched x ?_
          intro m hm
          exact hx0 m (by omega)
    · rw [rebuildLoop]
      rw [if_neg (by omega)]
      have hieq : i = 627 := by omega
      subst hieq
      exact ⟨fun q => rfl, fun q => rfl, hdone, huntouched⟩

set_option maxRecDepth 16000 in
/-- `reconstruct` preserves the tree invariant and halves the root
below `MAX_FREQ`: compaction keeps one halved copy of every leaf,
rebuilding restores sortedness and exact sums, and the new root is the
halved total, at most `(32768 + 314) / 2`. -/
theorem reconstruct_inv (s : Huff) (hI : Inv s) :
    Inv (reconstruct s) ∧ (reconstruct s).frequency_table 626 ≤ 32767 := by
  classical
  obtain ⟨c1, c2, c3, c4, c5, c6, c7, c8⟩ :=
    compactLoop_go s hI 700 0 0 s (by omega) (by omega) (by omega)
      (fun q _ => ⟨rfl, rfl⟩)
      (fun q => rfl)
      (fun m hm => absurd hm (by omega))
      (fun p hp _ => absurd hp (by omega))
      (fun m m' hm _ _ => absurd hm (by omega))
      (fun m hm => absurd hm (by omega))
      (by simp)
      (by simp)
  have hn : (compactLoop s 0 0 700).2 = 314 := by
    rw [c7, leaf_count s hI]
  rw [hn] at c2 c3 c4 c5 c6 c8
  have hTH : 2 * (∑ q ∈ Finset.Ico 0 314,
      (compactLoop s 0 0 700).1.frequency_table q) ≤ 32768 + 314 := by
    have hroot := hI.rootB
    have hpart := partition_sum s hI
    omega
  obtain ⟨b1, b2, b3, b4, b5, b6, b7, b8, b9, b10⟩ :=
    buildLoop_go (∑ q ∈ Finset.Ico 0 314,
        (compactLoop s 0 0 700).1.frequency_table q)
      s.parents s.frequency_table 400 314 (compactLoop s 0 0 700).1
      (by omega) (by omega) (by omega)
      (fun m hm => c6 m hm)
      (fun m hm => by
        obtain ⟨p, hp1, hp2, hp3, hp4⟩ := c3 m (by omega)
        rw [hp4]
        have := hI.pos p (by omega)
        omega)
      rfl
      (fun m hm hcm => by
        obtain ⟨p, hp1, hp2, hp3, hp4⟩ := c3 m (by omega)
        rw [hp3] at hcm
        omega)
      (fun m hm => by
        obtain ⟨p, hp1, hp2, hp3, hp4⟩ := c3 m (by omega)
        rw [hp3]
        exact hI.chdRange p (by omega))
      (fun m m' hm hm' he => c5 m m' (by omega) (by omega) he)
      (fun q hq => absurd hq (by omega))
      (fun a ha => by
        obtain ⟨hp1, hp2⟩ := hI.lpar a ha
        obtain ⟨m, hm1, hm2, hm3⟩ := c4 (s.parents (627 + a))
          (by omega) (by rw [hp2]; omega)
        exact ⟨m, by omega, by rw [hm2, hp2]⟩)
      c1
      (fun q hq => (c2 q (by omega)).1)
  have e0 : (2 * (314 - 314) : Nat) = 0 := rfl
  rw [e0] at b1 b2 b3 b4 b5 b6 b7 b8 b9 b10
  obtain ⟨r1, r2, r3, r4⟩ :=
    rebuildLoop_go s.parents 700 0
      (buildLoop (compactLoop s 0 0 700).1 314 0 400)
      (by omega) (by omega)
      (fun m hm hcm => (b4 m hm hcm).2.1)
      b6
      (fun m hm hcm => (b4 m hm hcm).1)
      (fun m hm => absurd hm (by omega))
      (fun x _ => b9 x)
  have hnotroot : ∀ m, m < 627 →
      (buildLoop (compactLoop s 0 0 700).1 314 0 400).children m ≠ 626 ∧
      ((buildLoop (compactLoop s 0 0 700).1 314 0 400).children m < 627 →
        (buildLoop (compactLoop s 0 0 700).1 314 0 400).children m + 1
          ≠ 626) := by
    intro m hm
    rcases Nat.lt_or_ge
      ((buildLoop (compactLoop s 0 0 700).1 314 0 400).children m) 627
      with h | h
    · obtain ⟨_, _, hle, _⟩ := b4 m hm h
      exact ⟨by omega, fun _ => by omega⟩
    · exact ⟨by omega, fun h2 => by omega⟩
  have hrec : reconstruct s = rebuildLoop
      (buildLoop (compactLoop s 0 0 700).1 314 0 400) 0 700 := rfl
  rw [hrec]
  constructor
  · refine ⟨?_, ?_, ?_, ?_, ?_, ?_, ?_, ?_, ?_, ?_, ?_, ?_⟩
    · intro i hi
      rw [r1 i, r1 (i + 1)]
      rcases Nat.lt_or_ge (i + 1) 627 with h | h
      · exact b1 i h
      · have hieq : i = 626 := by omega
        subst hieq
        rw [b3, b10 627 (by omega), hI.sentinel]
        omega
    · show (rebuildLoop (buildLoop (compactLoop s 0 0 700).1 314 0 400)
        0 700).frequency_table 627 = 65535
      rw [r1 627, b10 627 (by omega), hI.sentinel]
    · intro q hq
      rw [r1 q]
      exact b2 q (by omega)
    · show (rebuildLoop (buildLoop (compactLoop s 0 0 700).1 314 0 400)
        0 700).frequency_table 626 ≤ 32768
      rw [r1 626, b3]
      omega
    · intro p hp
      rw [r2 p]
      exact b5 p (by omega)
    · intro p hp hcp
      rw [r2 p] at hcp ⊢
      exact (b4 p (by omega) hcp).2.1
    · intro p hp hcp
      rw [r2 p] at hcp ⊢
      exact (r3 p (by omega)).1 hcp
    · intro p hp hcp
      rw [r2 p] at hcp ⊢
      exact (r3 p (by omega)).2 hcp
    · intro q hq
      obtain ⟨m, hm1, hm2, hm3⟩ := b7 q hq
      obtain ⟨_, hlt1, _, _⟩ := b4 m hm1 hm2
      have hpq : (rebuildLoop (buildLoop (compactLoop s 0 0 700).1
          314 0 400) 0 700).parents q = m := by
        rcases hm3 with he | he
        · rw [← he]
          exact ((r3 m hm1).1 hm2).1
        · rw [← he]
          exact ((r3 m hm1).1 hm2).2
      rw [hpq, r2 m]
      exact ⟨by omega, by omega, hm3⟩
    · show (rebuildLoop (buildLoop (compactLoop s 0 0 700).1 314 0 400)
        0 700).parents 626 = 0
      rw [r4 626 hnotroot]
      exact hI.parR
    · intro a ha
      obtain ⟨m, hm1, hm2⟩ := b8 a ha
      have hpm : (rebuildLoop (buildLoop (compactLoop s 0 0 700).1
          314 0 400) 0 700).parents (627 + a) = m := by
        have := (r3 m hm1).2 (by rw [hm2]; omega)
        rw [hm2] at this
        exact this
      rw [hpm, r2 m, hm2]
      exact ⟨by omega, rfl⟩
    · intro p hp hcp
      rw [r2 p] at hcp ⊢
      rw [r1 p, r1 _, r1 _]
      exact (b4 p (by omega) hcp).2.2.2
  · rw [r1 626, b3]
    omega

/-- `Inv` plus a sub-`MAX_FREQ` root give the walk invariant at a
leaf's tree position: the leaf has no tree children, so every internal
sum is exact and the pending-increment form is vacuous. -/
theorem winv_start (s : Huff) (hI : Inv s)
    (hroot : s.frequency_table 626 ≤ 32767) (a : Nat) (ha : a < 314) :
    WInv s (s.parents (627 + a)) := by
  obtain ⟨hp1, hp2⟩ := hI.lpar a ha
  refine ⟨hp1, hI.sorted, hI.sentinel, hI.pos, hroot, hI.chdRange,
    hI.chdPos, hI.pconfL, hI.pconfF, hI.par, hI.parR, hI.lpar,
    fun p hp _ hcp => hI.sum p hp hcp, ?_⟩
  intro hcp
  rw [hp2] at hcp
  omega

/-- `update` preserves the tree invariant on symbols below `N_CHAR`. -/
theorem update_inv (s : Huff) (c : Nat) (hc : c < 314) (hI : Inv s) :
    Inv (update s c) := by
  show Inv (updateWalk
    (if s.frequency_table 626 = 32768 then reconstruct s else s)
    ((if s.frequency_table 626 = 32768 then reconstruct s
      else s).parents (c + 627)) 700)
  have he : c + 627 = 627 + c := by omega
  rw [he]
  by_cases hroot : s.frequency_table 626 = 32768
  · rw [if_pos hroot]
    obtain ⟨hI', hroot'⟩ := reconstruct_inv s hI
    exact updateWalk_inv 700 _ _ (winv_start (reconstruct s) hI'
      hroot' c hc) (by omega)
  · rw [if_neg hroot]
    have hroot' : s.frequency_table 626 ≤ 32767 := by
      have := hI.rootB
      omega
    exact updateWalk_inv 700 _ _ (winv_start s hI hroot' c hc) (by omega)

/-- Every reachable model state satisfies the tree invariant. -/
theorem reachable_inv (s : Huff) (hs : ReachableHuff s) : Inv s := by
  induction hs with
  | init => exact initialHuff_inv
  | step hr hc ih => exact update_inv _ _ hc ih

/-- C4: in every `LzHufState` reachable from the initial state by
encoder or decoder operations, immediately after any call to `update`,
for every internal node index `j` with `N_CHAR ≤ j < T` the frequency
table is locally non-decreasing: `frequency[j-1] ≤ frequency[j]`. -/
theorem sibling_order_after_update (s : Huff) (hs : ReachableHuff s)
    (c : Nat) (hc : c < 314) (j : Nat) (hj1 : 314 ≤ j) (hj2 : j < 627) :
    (update s c).frequency_table (j - 1) ≤
      (update s c).frequency_table j := by
  have hI : Inv (update s c) := update_inv s c hc (reachable_inv s hs)
  have h := hI.sorted (j - 1) (by omega)
  rw [show j - 1 + 1 = j by omega] at h
  exact h

/-- C4 witness: the first update from the initial state, at symbol 0,
checked at the first internal node index 314. -/
theorem sibling_order_after_update_witness :
    ReachableHuff initialHuff ∧ (0 : Nat) < 314 ∧ (314 : Nat) ≤ 314 ∧
      (314 : Nat) < 627 ∧
      (update initialHuff 0).frequency_table (314 - 1) ≤
        (update initialHuff 0).frequency_table 314 :=
  ⟨ReachableHuff.init, by decide, by decide, by decide,
    sibling_order_after_update initialHuff ReachableHuff.init 0
      (by decide) 314 (by decide) (by decide)⟩

end Plusendi
